import Mathlib

/-!
Verification development for a Go DNS forwarder (local authoritative records,
LRU response cache, retrying upstream forwarder, request handler).  The Go
source is shallowly embedded: Go maps become association lists, `time.Time` /
`time.Duration` become natural numbers (seconds), pointers to messages become
immutable values (a deep copy of an immutable value is the value itself), and
the mutually recursive wildcard resolution is given a fuel parameter whose
exhaustion (`none`) marks divergence of the Go recursion.
-/

set_option maxHeartbeats 1000000

/-! DNS numeric constants, with the values of the wire protocol
    (as used by the miekg/dns library the source is written against). -/

def typeA : Nat := 1
def typeNS : Nat := 2
def typeCNAME : Nat := 5
def typeSOA : Nat := 6
def typePTR : Nat := 12
def typeMX : Nat := 15
def typeTXT : Nat := 16
def typeAAAA : Nat := 28
def typeSRV : Nat := 33
def typeNAPTR : Nat := 35
def typeCERT : Nat := 37
def typeDS : Nat := 43
def typeDNSKEY : Nat := 48
def typeSSHFP : Nat := 44
def typeTLSA : Nat := 52
def typeSMIMEA : Nat := 53
def typeSVCB : Nat := 64
def typeHTTPS : Nat := 65
def typeURI : Nat := 256
def typeCAA : Nat := 257

def classINET : Nat := 1

def rcodeSuccess : Nat := 0
def rcodeFormatError : Nat := 1
def rcodeServerFailure : Nat := 2
def rcodeNameError : Nat := 3
def rcodeNotImplemented : Nat := 4

/-- Go `dns.Question`: owner name, query type, query class. -/
structure Question where
  name : String
  qtype : Nat
  qclass : Nat
deriving DecidableEq, Repr

/-- Go `dns.RR_Header`: owner name, rr type, class, ttl. -/
structure RRHeader where
  name : String
  rrtype : Nat
  rclass : Nat
  ttl : Nat
deriving DecidableEq, Repr

/-- Type-specific payload of a resource record, covering the record kinds the
    local resolver constructs.  A/AAAA keep the configured address string (the
    parsed bytes are a function of it). -/
inductive RData where
  | ipv4 (ip : String)
  | ipv6 (ip : String)
  | cname (target : String)
  | mx (preference : Nat) (mxTarget : String)
  | txt (texts : List String)
  | https (priority : Nat) (target : String)
  | caa (flag : Nat) (tag : String) (value : String)
  | srv (priority weight port : Nat) (target : String)
  | svcb (priority : Nat) (target : String)
  | ds (keyTag algorithm digestType : Nat) (digest : String)
  | dnskey (flags protocol algorithm : Nat) (publicKey : String)
  | uri (priority weight : Nat) (target : String)
  | naptr (order preference : Nat) (flags service regexp replacement : String)
  | sshfp (algorithm typ : Nat) (fingerPrint : String)
  | tlsa (usage selector matchingType : Nat) (certificate : String)
  | smimea (usage selector matchingType : Nat) (certificate : String)
  | cert (typ keyTag algorithm : Nat) (certificate : String)
deriving DecidableEq, Repr

/-- A resource record: header plus payload. -/
structure RR where
  hdr : RRHeader
  rdata : RData
deriving DecidableEq, Repr

/-- Go `dns.Msg`, restricted to the fields the program reads or writes. -/
structure Msg where
  id : Nat
  response : Bool
  authoritative : Bool
  recursionAvailable : Bool
  recursionDesired : Bool
  rcode : Nat
  question : List Question
  answer : List RR
deriving DecidableEq, Repr

/-- miekg/dns `TypeToString` for the types this program mentions; a Go map
    lookup of an absent key yields the empty string. -/
def typeToString (t : Nat) : String :=
  if t = typeA then "A" else if t = typeAAAA then "AAAA"
  else if t = typeCNAME then "CNAME" else if t = typeMX then "MX"
  else if t = typeTXT then "TXT" else if t = typeNS then "NS"
  else if t = typeSOA then "SOA" else if t = typePTR then "PTR"
  else if t = typeHTTPS then "HTTPS" else if t = typeCAA then "CAA"
  else if t = typeSRV then "SRV" else if t = typeSVCB then "SVCB"
  else if t = typeDS then "DS" else if t = typeDNSKEY then "DNSKEY"
  else if t = typeURI then "URI" else if t = typeNAPTR then "NAPTR"
  else if t = typeSSHFP then "SSHFP" else if t = typeTLSA then "TLSA"
  else if t = typeSMIMEA then "SMIMEA" else if t = typeCERT then "CERT"
  else ""

/-- miekg/dns `ClassToString`, restricted to IN. -/
def classToString (c : Nat) : String :=
  if c = classINET then "IN" else ""

/-- ASCII lowercasing of one character, as Go `strings.ToLower` acts on the
    ASCII domain names in scope (kernel-computable, unlike `Char.toLower`). -/
def charToLower (c : Char) : Char :=
  if 65 ≤ c.toNat ∧ c.toNat ≤ 90 then Char.ofNat (c.toNat + 32) else c

/-- Go `strings.ToLower` on ASCII input. -/
def strToLower (s : String) : String :=
  ⟨s.data.map charToLower⟩

/-- Go `strings.HasSuffix(s, ".")`. -/
def endsWithDot (s : String) : Bool :=
  s.data.getLast? == some '.'

/-- Go `strings.TrimSuffix(name, ".")`. -/
def trimDot (name : String) : String :=
  if endsWithDot name then ⟨name.data.dropLast⟩ else name

/-- `strings.ToLower(strings.TrimSuffix(question.Name, "."))` from
    `LocalResolver.Resolve`. -/
def normalizeDomain (name : String) : String :=
  strToLower (trimDot name)

/-- Append a trailing dot unless one is present (CNAME/MX target
    canonicalization in the resolver). -/
def ensureDot (target : String) : String :=
  if endsWithDot target then target else target ++ "."

/-- Helper of `splitOnDot`: splits the remaining characters at each dot,
    `acc` holding the reversed current segment. -/
def splitDotAux : List Char → List Char → List String
  | [], acc => [⟨acc.reverse⟩]
  | c :: cs, acc =>
    if c = '.' then ⟨acc.reverse⟩ :: splitDotAux cs []
    else splitDotAux cs (c :: acc)

/-- Go `strings.Split(s, ".")`: every dot separates; the empty string yields
    one empty segment. -/
def splitOnDot (s : String) : List String :=
  splitDotAux s.data []

/-- Association-list lookup, modelling a Go map index expression. -/
def alookup {α : Type} (m : List (String × α)) (k : String) : Option α :=
  match m.find? (fun p => p.1 == k) with
  | some p => some p.2
  | none => none

/-- Go `config.MXRecord`. -/
structure MXRecord where
  priority : Nat
  target : String
deriving DecidableEq, Repr

/-- Go `config.HTTPSRecord` (also used for SVCB). -/
structure HTTPSRecord where
  priority : Nat
  target : String
  params : String
deriving DecidableEq, Repr

/-- Go `config.CAARecord`. -/
structure CAARecord where
  flag : Nat
  tag : String
  value : String
deriving DecidableEq, Repr

/-- Go `config.SRVRecord`. -/
structure SRVRecord where
  priority : Nat
  weight : Nat
  port : Nat
  target : String
deriving DecidableEq, Repr

/-- Go `config.DSRecord`. -/
structure DSRecord where
  keyTag : Nat
  algorithm : Nat
  digestType : Nat
  digest : String
deriving DecidableEq, Repr

/-- Go `config.DNSKEYRecord`. -/
structure DNSKEYRecord where
  flags : Nat
  protocol : Nat
  algorithm : Nat
  publicKey : String
deriving DecidableEq, Repr

/-- Go `config.URIRecord`. -/
structure URIRecord where
  priority : Nat
  weight : Nat
  target : String
deriving DecidableEq, Repr

/-- Go `config.NAPTRRecord`. -/
structure NAPTRRecord where
  order : Nat
  preference : Nat
  flags : String
  service : String
  regexp : String
  replacement : String
deriving DecidableEq, Repr

/-- Go `config.SSHFPRecord`. -/
structure SSHFPRecord where
  algorithm : Nat
  typ : Nat
  fingerprint : String
deriving DecidableEq, Repr

/-- Go `config.TLSARecord` (also SMIMEA shape). -/
structure TLSARecord where
  usage : Nat
  selector : Nat
  matchingType : Nat
  certificate : String
deriving DecidableEq, Repr

/-- Go `config.CERTRecord`. -/
structure CERTRecord where
  typ : Nat
  keyTag : Nat
  algorithm : Nat
  certificate : String
deriving DecidableEq, Repr

/-- Go `config.RecordsConfig`: one table per record type, keyed by lowercase
    domain without trailing dot (Go maps modelled as association lists). -/
structure RecordsConfig where
  A : List (String × String) := []
  AAAA : List (String × String) := []
  CNAME : List (String × String) := []
  MX : List (String × MXRecord) := []
  TXT : List (String × String) := []
  HTTPS : List (String × HTTPSRecord) := []
  CAA : List (String × CAARecord) := []
  SRV : List (String × SRVRecord) := []
  SVCB : List (String × HTTPSRecord) := []
  DS : List (String × DSRecord) := []
  DNSKEY : List (String × DNSKEYRecord) := []
  URI : List (String × URIRecord) := []
  NAPTR : List (String × NAPTRRecord) := []
  SSHFP : List (String × SSHFPRecord) := []
  TLSA : List (String × TLSARecord) := []
  SMIMEA : List (String × TLSARecord) := []
  CERT : List (String × CERTRecord) := []
deriving DecidableEq, Repr

/-- `Handler.extractTTL`: 300 s when the answer section is empty, otherwise
    the fold that starts from 3600 and lowers to each smaller answer TTL,
    finally raised to at least 60. -/
def extractTTL (msg : Msg) : Nat :=
  if msg.answer.length = 0 then 300
  else
    let minTTL := msg.answer.foldl
      (fun m rr => if rr.hdr.ttl < m then rr.hdr.ttl else m) 3600
    if minTTL < 60 then 60 else minTTL

/-- `Handler.isSupportedType`: the 20-type switch. -/
def isSupportedType (qtype : Nat) : Bool :=
  qtype = typeA ∨ qtype = typeAAAA ∨ qtype = typeCNAME ∨ qtype = typeMX ∨
  qtype = typeTXT ∨ qtype = typeNS ∨ qtype = typeSOA ∨ qtype = typePTR ∨
  qtype = typeHTTPS ∨ qtype = typeCAA ∨ qtype = typeSRV ∨ qtype = typeSVCB ∨
  qtype = typeDS ∨ qtype = typeDNSKEY ∨ qtype = typeURI ∨ qtype = typeNAPTR ∨
  qtype = typeSSHFP ∨ qtype = typeTLSA ∨ qtype = typeSMIMEA ∨ qtype = typeCERT

/-- `cache.GenerateCacheKey`: `NAME:TYPE:CLASS` with the name exactly as it
    appears in the question. -/
def generateCacheKey (q : Question) : String :=
  q.name ++ ":" ++ typeToString q.qtype ++ ":" ++ classToString q.qclass

/-! The local resolver (`resolver.LocalResolver`).  `Resolve` recurses into
    itself through `resolveWildcard`; the Go recursion can diverge, so the
    embedding takes a fuel parameter and returns `none` when the recursion is
    deeper than the fuel (a result of `some r` means the Go call terminates
    with `(msg, found)` equal to `r`).  `ip4 s` models
    `net.ParseIP(s) != nil && To4() != nil`; `ip6 s` models
    `net.ParseIP(s) != nil && To16() != nil`. -/

/-- One exact (non-wildcard) table probe: the body of the `switch` in
    `LocalResolver.Resolve`, producing the single answer RR when the
    normalized `domain` is present (and, for A/AAAA, the value parses). -/
def exactRR (rc : RecordsConfig) (ip4 ip6 : String → Bool)
    (domain : String) (q : Question) : Option RR :=
  if q.qtype = typeA then
    match alookup rc.A domain with
    | some ip => if ip4 ip then
        some ⟨⟨q.name, typeA, classINET, 300⟩, .ipv4 ip⟩ else none
    | none => none
  else if q.qtype = typeAAAA then
    match alookup rc.AAAA domain with
    | some ip => if ip6 ip then
        some ⟨⟨q.name, typeAAAA, classINET, 300⟩, .ipv6 ip⟩ else none
    | none => none
  else if q.qtype = typeCNAME then
    match alookup rc.CNAME domain with
    | some target =>
        some ⟨⟨q.name, typeCNAME, classINET, 300⟩, .cname (ensureDot target)⟩
    | none => none
  else if q.qtype = typeMX then
    match alookup rc.MX domain with
    | some mx =>
        some ⟨⟨q.name, typeMX, classINET, 300⟩, .mx mx.priority (ensureDot mx.target)⟩
    | none => none
  else if q.qtype = typeTXT then
    match alookup rc.TXT domain with
    | some txt => some ⟨⟨q.name, typeTXT, classINET, 300⟩, .txt [txt]⟩
    | none => none
  else if q.qtype = typeHTTPS then
    match alookup rc.HTTPS domain with
    | some r => some ⟨⟨q.name, typeHTTPS, classINET, 300⟩, .https r.priority r.target⟩
    | none => none
  else if q.qtype = typeCAA then
    match alookup rc.CAA domain with
    | some r => some ⟨⟨q.name, typeCAA, classINET, 300⟩, .caa r.flag r.tag r.value⟩
    | none => none
  else if q.qtype = typeSRV then
    match alookup rc.SRV domain with
    | some r =>
        some ⟨⟨q.name, typeSRV, classINET, 300⟩, .srv r.priority r.weight r.port r.target⟩
    | none => none
  else if q.qtype = typeSVCB then
    match alookup rc.SVCB domain with
    | some r => some ⟨⟨q.name, typeSVCB, classINET, 300⟩, .svcb r.priority r.target⟩
    | none => none
  else if q.qtype = typeDS then
    match alookup rc.DS domain with
    | some r =>
        some ⟨⟨q.name, typeDS, classINET, 300⟩, .ds r.keyTag r.algorithm r.digestType r.digest⟩
    | none => none
  else if q.qtype = typeDNSKEY then
    match alookup rc.DNSKEY domain with
    | some r =>
        some ⟨⟨q.name, typeDNSKEY, classINET, 300⟩,
          .dnskey r.flags r.protocol r.algorithm r.publicKey⟩
    | none => none
  else if q.qtype = typeURI then
    match alookup rc.URI domain with
    | some r => some ⟨⟨q.name, typeURI, classINET, 300⟩, .uri r.priority r.weight r.target⟩
    | none => none
  else if q.qtype = typeNAPTR then
    match alookup rc.NAPTR domain with
    | some r =>
        some ⟨⟨q.name, typeNAPTR, classINET, 300⟩,
          .naptr r.order r.preference r.flags r.service r.regexp r.replacement⟩
    | none => none
  else if q.qtype = typeSSHFP then
    match alookup rc.SSHFP domain with
    | some r =>
        some ⟨⟨q.name, typeSSHFP, classINET, 300⟩, .sshfp r.algorithm r.typ r.fingerprint⟩
    | none => none
  else if q.qtype = typeTLSA then
    match alookup rc.TLSA domain with
    | some r =>
        some ⟨⟨q.name, typeTLSA, classINET, 300⟩,
          .tlsa r.usage r.selector r.matchingType r.certificate⟩
    | none => none
  else if q.qtype = typeSMIMEA then
    match alookup rc.SMIMEA domain with
    | some r =>
        some ⟨⟨q.name, typeSMIMEA, classINET, 300⟩,
          .smimea r.usage r.selector r.matchingType r.certificate⟩
    | none => none
  else if q.qtype = typeCERT then
    match alookup rc.CERT domain with
    | some r =>
        some ⟨⟨q.name, typeCERT, classINET, 300⟩,
          .cert r.typ r.keyTag r.algorithm r.certificate⟩
    | none => none
  else none

/-- The reply built for a found record: `SetReply` on a request holding just
    the question (zero id, rd = false), then `Authoritative = true`,
    `RecursionAvailable = false`, the single answer appended and
    rcode NOERROR. -/
def foundReply (q : Question) (rr : RR) : Msg :=
  { id := 0, response := true, authoritative := true,
    recursionAvailable := false, recursionDesired := false,
    rcode := rcodeSuccess, question := [q], answer := [rr] }

/-- The wildcard candidates of `hasWildcardMatch` / `resolveWildcard`:
    for i from 0 to label-count-1, the string
    `"*." + strings.Join(parts[i+1:], ".")`. -/
def wildcards (domain : String) : List String :=
  let parts := splitOnDot domain
  (List.range parts.length).map
    (fun i => "*." ++ String.intercalate "." (parts.drop (i + 1)))

/-- One type-table membership probe of `hasWildcardMatch` (only the five
    basic types are ever probed; the switch has no other case). -/
def wildcardTableHit (rc : RecordsConfig) (qtype : Nat) (w : String) : Bool :=
  if qtype = typeA then (alookup rc.A w).isSome
  else if qtype = typeAAAA then (alookup rc.AAAA w).isSome
  else if qtype = typeCNAME then (alookup rc.CNAME w).isSome
  else if qtype = typeMX then (alookup rc.MX w).isSome
  else if qtype = typeTXT then (alookup rc.TXT w).isSome
  else false

/-- `LocalResolver.hasWildcardMatch`. -/
def hasWildcardMatch (rc : RecordsConfig) (domain : String) (qtype : Nat) : Bool :=
  (wildcards domain).any (wildcardTableHit rc qtype)

/-- The loop of `LocalResolver.resolveWildcard`: probe each candidate with a
    full recursive `Resolve` call; on a hit rewrite every answer owner name to
    the original question name.  `none` propagates divergence of the
    recursive call. -/
def wildcardProbe (resolveSub : Question → Option (Option Msg))
    (q : Question) : List String → Option (Option Msg)
  | [] => some none
  | w :: ws =>
    match resolveSub ⟨w ++ ".", q.qtype, q.qclass⟩ with
    | none => none
    | some (some resp) =>
        some (some { resp with
          answer := resp.answer.map (fun rr => { rr with hdr := { rr.hdr with name := q.name } }) })
    | some none => wildcardProbe resolveSub q ws

/-- The body of `LocalResolver.Resolve`: exact probe, then wildcard fallback
    through the recursive call `sub`. -/
def resolveStep (rc : RecordsConfig) (ip4 ip6 : String → Bool)
    (sub : Question → Option (Option Msg)) (q : Question) : Option (Option Msg) :=
  let domain := normalizeDomain q.name
  match exactRR rc ip4 ip6 domain q with
  | some rr => some (some (foundReply q rr))
  | none =>
    if hasWildcardMatch rc domain q.qtype then
      wildcardProbe sub q (wildcards domain)
    else
      some none

/-- `LocalResolver.Resolve` with fuel: `some (some m)` means the Go call
    returns `(m, true)`, `some none` means `(nil, false)`, and `none` means
    the recursion nests deeper than `fuel` (so for every fuel: divergence). -/
def lresolve (rc : RecordsConfig) (ip4 ip6 : String → Bool) :
    Nat → Question → Option (Option Msg)
  | 0, _ => none
  | fuel + 1, q => resolveStep rc ip4 ip6 (lresolve rc ip4 ip6 fuel) q

/-! Claim C1: TTL extraction. -/

/-- Folding `min` from a combined seed splits into an outer `min`. -/
theorem foldl_min_min (l : List Nat) : ∀ a b : Nat,
    l.foldl min (min a b) = min a (l.foldl min b) := by
  induction l with
  | nil => intro a b; rfl
  | cons c l ih =>
    intro a b
    show l.foldl min (min (min a b) c) = min a (l.foldl min (min b c))
    rw [Nat.min_assoc, ih]

/-- A response whose single answer RR carries TTL 7200. -/
def msgC1big : Msg :=
  ⟨1, true, false, true, false, 0, [],
    [⟨⟨"big.example.", 1, 1, 7200⟩, .ipv4 "10.0.0.3"⟩]⟩

/-- C1 counterexample: every answer RR of `msgC1big` has TTL 7200 > 60, yet
    `extractTTL` yields 3600, not 7200 — the fold's initial accumulator 3600
    silently caps the result above, refuting the claim that the minimum is
    clamped only from below. -/
theorem extractTTL_counterexample :
    (∀ rr ∈ msgC1big.answer, 60 < rr.hdr.ttl ∧ rr.hdr.ttl = 7200) ∧
    msgC1big.answer ≠ [] ∧ extractTTL msgC1big = 3600 ∧
    extractTTL msgC1big ≠ 7200 := by decide

/-- C1 (amended): the TTL used to cache a response is 300 s when the answer
    section is empty, and otherwise the minimum TTL across all answer RRs
    clamped to the interval from 60 s up to a 3600 s upper cap, i.e.
    `max 60 (min 3600 m)` for `m` the minimum answer TTL. -/
theorem extractTTL_clamped (msg : Msg) :
    (msg.answer = [] → extractTTL msg = 300) ∧
    (msg.answer ≠ [] →
      ∃ m, (msg.answer.map (fun rr => rr.hdr.ttl)).min? = some m ∧
        extractTTL msg = max 60 (min 3600 m)) := by
  constructor
  · intro h
    simp [extractTTL, h]
  · intro h
    match hmsg : msg.answer with
    | [] => exact absurd hmsg h
    | a :: l =>
      refine ⟨(l.map (fun rr => rr.hdr.ttl)).foldl min a.hdr.ttl, ?_, ?_⟩
      · simp [List.min?]
      · have hstep : (fun (m : Nat) (rr : RR) => if rr.hdr.ttl < m then rr.hdr.ttl else m)
            = fun (m : Nat) (rr : RR) => min m rr.hdr.ttl := by
          funext m rr
          rw [Nat.min_def]
          split <;> split <;> omega
        unfold extractTTL
        rw [hmsg]
        simp only [List.length_cons, Nat.succ_ne_zero, if_neg]
        rw [hstep]
        have hfold : (a :: l).foldl (fun (m : Nat) (rr : RR) => min m rr.hdr.ttl) 3600
            = min 3600 ((l.map (fun rr => rr.hdr.ttl)).foldl min a.hdr.ttl) := by
          show l.foldl (fun (m : Nat) (rr : RR) => min m rr.hdr.ttl) (min 3600 a.hdr.ttl) = _
          rw [← List.foldl_map (fun rr => rr.hdr.ttl) min l, foldl_min_min]
        rw [hfold]
        set F := min 3600 ((l.map (fun rr => rr.hdr.ttl)).foldl min a.hdr.ttl) with hF
        rcases Nat.lt_or_ge F 60 with hc | hc
        · simp [hc]; omega
        · simp [Nat.not_lt.mpr hc]; omega

/-- A response with answer TTLs 500 and 70. -/
def msgC1w : Msg :=
  ⟨7, true, false, true, false, 0, [],
    [⟨⟨"w.example.", 1, 1, 500⟩, .ipv4 "10.0.0.1"⟩,
     ⟨⟨"w.example.", 1, 1, 70⟩, .ipv4 "10.0.0.2"⟩]⟩

/-- Witness for `extractTTL_clamped` at a concrete response. -/
theorem extractTTL_clamped_witness :
    msgC1w.answer ≠ [] ∧
    ∃ m, (msgC1w.answer.map (fun rr => rr.hdr.ttl)).min? = some m ∧
      extractTTL msgC1w = max 60 (min 3600 m) :=
  ⟨by decide, (extractTTL_clamped msgC1w).2 (by decide)⟩

/-! Claim C2: wildcard resolution.  The failing configuration holds a single
    wildcard A record two labels up from the query name. -/

/-- Records table of the failing input: only `*.example -> 192.0.2.7`. -/
def rcC2 : RecordsConfig := { A := [("*.example", "192.0.2.7")] }

/-- IPv4 validity for the failing input (192.0.2.7 parses). -/
def ip4C2 : String → Bool := fun s => s == "192.0.2.7"

/-- IPv6 validity for the failing input (no AAAA records). -/
def ip6C2 : String → Bool := fun _ => false

/-- The failing query: `deep.foo.example. A IN`. -/
def qC2 : Question := ⟨"deep.foo.example.", typeA, classINET⟩

/-- The wildcard-shaped question `resolveWildcard` builds for the first
    candidate of the failing query. -/
def qC2w : Question := ⟨"*.foo.example.", typeA, classINET⟩

/-- The first wildcard candidate of the domain `*.foo.example` is the string
    `*.foo.example` itself, so `Resolve` on that question re-enters itself
    with identical arguments: for every recursion depth bound the call has
    not returned. -/
theorem lresolve_qC2w_diverges :
    ∀ fuel, lresolve rcC2 ip4C2 ip6C2 fuel qC2w = none := by
  intro fuel
  induction fuel with
  | zero => rfl
  | succ n ih =>
    rw [show lresolve rcC2 ip4C2 ip6C2 (n + 1) qC2w
        = wildcardProbe (lresolve rcC2 ip4C2 ip6C2 n) qC2w
            ["*.foo.example", "*.example", "*."] from rfl]
    have h2 : (⟨"*.foo.example" ++ ".", qC2w.qtype, qC2w.qclass⟩ : Question) = qC2w := rfl
    simp only [wildcardProbe, h2, ih]

/-- C2: with `*.example` configured and query `deep.foo.example. A`, the
    wildcard tables do contain a matching candidate, yet for every recursion
    depth the resolution has not produced a result: probing the first
    candidate `*.foo.example` re-enters `Resolve` on the same question
    forever, so the first table hit (`*.example`) is never reached and no
    answer with owner `deep.foo.example.` is ever returned. -/
theorem lresolve_deep_diverges :
    hasWildcardMatch rcC2 "deep.foo.example" typeA = true ∧
    ∀ fuel, lresolve rcC2 ip4C2 ip6C2 fuel qC2 = none := by
  refine ⟨by decide, ?_⟩
  intro fuel
  match fuel with
  | 0 => rfl
  | n + 1 =>
    rw [show lresolve rcC2 ip4C2 ip6C2 (n + 1) qC2
        = wildcardProbe (lresolve rcC2 ip4C2 ip6C2 n) qC2
            ["*.foo.example", "*.example", "*."] from rfl]
    have h2 : (⟨"*.foo.example" ++ ".", qC2.qtype, qC2.qclass⟩ : Question) = qC2w := rfl
    simp only [wildcardProbe, h2, lresolve_qC2w_diverges n]

/-! The upstream forwarder (`upstream.UpstreamResolver.Resolve`).  One network
    exchange either fails at transport level or yields a response message;
    the outcomes of the exchanges are a function of (attempt, server index).
    The trace records, in order, each server actually queried and each
    back-off sleep actually performed. -/

/-- Outcome of one `queryServer` call. -/
inductive UOutcome where
  | exchangeErr : UOutcome
  | resp : Msg → UOutcome
deriving DecidableEq, Repr

/-- The errors the forwarder records and returns. -/
inductive UErr where
  | exchangeFailed (server : String)
  | badRcode (rcode : Nat)
  | allFailed
  | resolveFailed (name : String) (attempts : Nat) (inner : UErr)
deriving DecidableEq, Repr

/-- Observable events of one `Resolve` call. -/
inductive UEvent where
  | query (server : String)
  | sleep (ms : Nat)
deriving DecidableEq, Repr

/-- The inner `for _, server := range r.servers` loop of one attempt:
    transport errors and non-NOERROR/NXDOMAIN rcodes record an error and move
    on; NOERROR or NXDOMAIN returns at once. -/
def tryServers (out : Nat → Nat → UOutcome) (attempt : Nat) :
    List String → Nat → Option UErr → Option Msg × Option UErr × List UEvent
  | [], _, lastErr => (none, lastErr, [])
  | s :: rest, i, lastErr =>
    match out attempt i with
    | .exchangeErr =>
      let r := tryServers out attempt rest (i + 1) (some (.exchangeFailed s))
      (r.1, r.2.1, .query s :: r.2.2)
    | .resp m =>
      if m.rcode = rcodeSuccess ∨ m.rcode = rcodeNameError then
        (some m, lastErr, [.query s])
      else
        let r := tryServers out attempt rest (i + 1) (some (.badRcode m.rcode))
        (r.1, r.2.1, .query s :: r.2.2)

/-- The outer `for attempt := 0; attempt <= r.retries` loop: `remaining` is
    the number of attempt rounds still to run (including the current one);
    a sleep of `(attempt+1) * 100` ms separates consecutive rounds. -/
def runAttempts (out : Nat → Nat → UOutcome) (servers : List String) :
    Nat → Nat → Option UErr → Option Msg × Option UErr × List UEvent
  | 0, _, lastErr => (none, lastErr, [])
  | remaining + 1, attempt, lastErr =>
    let r := tryServers out attempt servers 0 lastErr
    match r.1 with
    | some m => (some m, r.2.1, r.2.2)
    | none =>
      match remaining with
      | 0 => (none, r.2.1, r.2.2)
      | _ + 1 =>
        let r2 := runAttempts out servers remaining (attempt + 1) r.2.1
        (r2.1, r2.2.1, r.2.2 ++ .sleep ((attempt + 1) * 100) :: r2.2.2)

/-- `UpstreamResolver.Resolve`: retries+1 rounds over the server list; on
    exhaustion the last recorded error (or a synthesized all-servers-failed
    error) is wrapped in the failed-to-resolve error.  Also yields the event
    trace. -/
def uresolve (out : Nat → Nat → UOutcome) (servers : List String)
    (retries : Nat) (q : Question) : Except UErr Msg × List UEvent :=
  let r := runAttempts out servers (retries + 1) 0 none
  match r.1 with
  | some m => (.ok m, r.2.2)
  | none =>
    let lastErr := match r.2.1 with
      | some e => e
      | none => .allFailed
    (.error (.resolveFailed q.name (retries + 1) lastErr), r.2.2)

/-! The request handler (`dns.Handler.ServeDNS`).  The cache, local resolver
    and upstream forwarder are the handler's three collaborators, passed as
    functions; the result records the message written to the client and the
    cache insertions performed. -/

/-- miekg/dns `Msg.SetReply` on a fresh message: echo id and rd, mark as
    response, rcode NOERROR, copy the first question when one exists. -/
def setReply (req : Msg) : Msg :=
  { id := req.id, response := true, authoritative := false,
    recursionAvailable := false, recursionDesired := req.recursionDesired,
    rcode := rcodeSuccess,
    question := match req.question with | [] => [] | q :: _ => [q],
    answer := [] }

/-- What `ServeDNS` produced: the reply written to the client and the list of
    `cache.Set(key, msg, ttl)` calls it made. -/
structure ServeResult where
  written : Msg
  cacheSets : List (String × Msg × Nat)
deriving DecidableEq, Repr

/-- `Handler.ServeDNS`: skeleton reply, FORMERR on empty question section,
    NOTIMP on unsupported type, then cache → local → upstream, caching any
    fresh answer whose extracted TTL is positive and substituting the
    client's id. -/
def serveDNS (cacheGet : String → Option Msg)
    (localResolve : Question → Option Msg)
    (upstreamResolve : Question → Except UErr Msg) (r : Msg) : ServeResult :=
  let response := { setReply r with authoritative := false, recursionAvailable := true }
  match r.question with
  | [] => ⟨{ response with rcode := rcodeFormatError }, []⟩
  | question :: _ =>
    if ¬ isSupportedType question.qtype then
      ⟨{ response with rcode := rcodeNotImplemented }, []⟩
    else
      let cacheKey := generateCacheKey question
      match cacheGet cacheKey with
      | some cached => ⟨{ cached with id := r.id }, []⟩
      | none =>
        match localResolve question with
        | some localResponse =>
          let localResponse := { localResponse with id := r.id }
          let ttl := extractTTL localResponse
          ⟨localResponse, if 0 < ttl then [(cacheKey, localResponse, ttl)] else []⟩
        | none =>
          match upstreamResolve question with
          | .error _ => ⟨{ response with rcode := rcodeServerFailure }, []⟩
          | .ok up =>
            let up := { up with id := r.id }
            let ttl := extractTTL up
            ⟨up, if 0 < ttl then [(cacheKey, up, ttl)] else []⟩

/-! Claim C5: handler error shaping. -/

/-- C5: a query with no questions is answered FORMERR; a first question of
    unsupported type is answered NOTIMP; and when cache and local resolver
    miss and the upstream forwarder errors, the skeleton reply with SERVFAIL
    is written and no cache insertion happens (in each case `cacheSets` is
    empty). -/
theorem serveDNS_error_shaping
    (cacheGet : String → Option Msg) (localResolve : Question → Option Msg)
    (upstreamResolve : Question → Except UErr Msg) (r : Msg) :
    (r.question = [] →
      serveDNS cacheGet localResolve upstreamResolve r =
        ⟨{ id := r.id, response := true, authoritative := false,
           recursionAvailable := true, recursionDesired := r.recursionDesired,
           rcode := rcodeFormatError, question := [], answer := [] }, []⟩) ∧
    (∀ q qs, r.question = q :: qs → isSupportedType q.qtype = false →
      serveDNS cacheGet localResolve upstreamResolve r =
        ⟨{ id := r.id, response := true, authoritative := false,
           recursionAvailable := true, recursionDesired := r.recursionDesired,
           rcode := rcodeNotImplemented, question := [q], answer := [] }, []⟩) ∧
    (∀ q qs e, r.question = q :: qs → isSupportedType q.qtype = true →
      cacheGet (generateCacheKey q) = none → localResolve q = none →
      upstreamResolve q = .error e →
      serveDNS cacheGet localResolve upstreamResolve r =
        ⟨{ id := r.id, response := true, authoritative := false,
           recursionAvailable := true, recursionDesired := r.recursionDesired,
           rcode := rcodeServerFailure, question := [q], answer := [] }, []⟩) := by
  refine ⟨?_, ?_, ?_⟩
  · intro h
    simp [serveDNS, setReply, h]
  · intro q qs h hsup
    simp [serveDNS, setReply, h, hsup]
  · intro q qs e h hsup hc hl hu
    simp [serveDNS, setReply, h, hsup, hc, hl, hu]

/-- A concrete inbound query for the C5 witness. -/
def rC5 : Msg := ⟨42, false, false, false, true, 0, [⟨"miss.example.", typeA, classINET⟩], []⟩

/-- Witness for `serveDNS_error_shaping`: every upstream attempt failing on a
    cache-and-local miss yields the SERVFAIL skeleton and no cache write. -/
theorem serveDNS_error_shaping_witness :
    serveDNS (fun _ => none) (fun _ => none) (fun _ => .error .allFailed) rC5 =
      ⟨{ id := 42, response := true, authoritative := false,
         recursionAvailable := true, recursionDesired := true,
         rcode := rcodeServerFailure,
         question := [⟨"miss.example.", typeA, classINET⟩], answer := [] }, []⟩ :=
  (serveDNS_error_shaping (fun _ => none) (fun _ => none)
      (fun _ => .error .allFailed) rC5).2.2
    ⟨"miss.example.", typeA, classINET⟩ [] .allFailed rfl (by decide) rfl rfl rfl

/-! Claim C10: a wildcard-matched local response keeps the wildcard name in
    its question section.  Small rewrite lemmas first. -/

/-- Unfold one fuel step of the resolver. -/
theorem lresolve_succ (rc : RecordsConfig) (ip4 ip6 : String → Bool)
    (fuel : Nat) (q : Question) :
    lresolve rc ip4 ip6 (fuel + 1) q
      = resolveStep rc ip4 ip6 (lresolve rc ip4 ip6 fuel) q := rfl

/-- An exact table hit resolves immediately. -/
theorem resolveStep_exact (rc : RecordsConfig) (ip4 ip6 : String → Bool)
    (sub : Question → Option (Option Msg)) (q : Question) (rr : RR)
    (h : exactRR rc ip4 ip6 (normalizeDomain q.name) q = some rr) :
    resolveStep rc ip4 ip6 sub q = some (some (foundReply q rr)) := by
  simp only [resolveStep, h]

/-- On an exact miss with a wildcard table hit, resolution continues with the
    wildcard probe loop. -/
theorem resolveStep_wild (rc : RecordsConfig) (ip4 ip6 : String → Bool)
    (sub : Question → Option (Option Msg)) (q : Question)
    (hexact : exactRR rc ip4 ip6 (normalizeDomain q.name) q = none)
    (hwild : hasWildcardMatch rc (normalizeDomain q.name) q.qtype = true) :
    resolveStep rc ip4 ip6 sub q
      = wildcardProbe sub q (wildcards (normalizeDomain q.name)) := by
  simp only [resolveStep, hexact, hwild, if_true]

/-- A successful probe of the head candidate returns its response with every
    answer owner rewritten to the original question name. -/
theorem wildcardProbe_cons_found (sub : Question → Option (Option Msg))
    (q : Question) (w : String) (ws : List String) (resp : Msg)
    (h : sub ⟨w ++ ".", q.qtype, q.qclass⟩ = some (some resp)) :
    wildcardProbe sub q (w :: ws)
      = some (some { resp with
          answer := resp.answer.map
            (fun rr => { rr with hdr := { rr.hdr with name := q.name } }) }) := by
  simp only [wildcardProbe, h]

/-- The response produced for query `a.b.c. A` matched by wildcard `*.b.c`:
    question section still names the wildcard, answer owner rewritten. -/
def respC10 (ip : String) : Msg :=
  ⟨0, true, true, false, false, rcodeSuccess,
   [⟨"*.b.c.", typeA, classINET⟩],
   [⟨⟨"a.b.c.", typeA, classINET, 300⟩, .ipv4 ip⟩]⟩

/-- With `*.b.c -> ip` configured and no exact entry, resolving `a.b.c. A`
    terminates at any depth at least 2 and yields `respC10 ip`. -/
theorem wildcard_resolution_steps (rc : RecordsConfig) (ip4 ip6 : String → Bool)
    (ip : String) (fuel : Nat)
    (hA : alookup rc.A "a.b.c" = none)
    (hW : alookup rc.A "*.b.c" = some ip)
    (hip : ip4 ip = true) :
    lresolve rc ip4 ip6 (fuel + 2) ⟨"a.b.c.", typeA, classINET⟩
      = some (some (respC10 ip)) := by
  have hexact : exactRR rc ip4 ip6
      (normalizeDomain (Question.name ⟨"a.b.c.", typeA, classINET⟩))
      ⟨"a.b.c.", typeA, classINET⟩ = none := by
    simp [exactRR, hA, show normalizeDomain "a.b.c." = "a.b.c" from rfl]
  have hwq : exactRR rc ip4 ip6
      (normalizeDomain (Question.name ⟨"*.b.c.", typeA, classINET⟩))
      ⟨"*.b.c.", typeA, classINET⟩
      = some ⟨⟨"*.b.c.", typeA, classINET, 300⟩, .ipv4 ip⟩ := by
    simp [exactRR, hW, hip, show normalizeDomain "*.b.c." = "*.b.c" from rfl]
  have hwild : hasWildcardMatch rc
      (normalizeDomain (Question.name ⟨"a.b.c.", typeA, classINET⟩)) typeA = true := by
    rw [show normalizeDomain (Question.name ⟨"a.b.c.", typeA, classINET⟩) = "a.b.c" from rfl]
    simp only [hasWildcardMatch]
    rw [show wildcards "a.b.c" = ["*.b.c", "*.c", "*."] from rfl]
    simp [wildcardTableHit, hW]
  have hinner : lresolve rc ip4 ip6 (fuel + 1) ⟨"*.b.c.", typeA, classINET⟩
      = some (some (foundReply ⟨"*.b.c.", typeA, classINET⟩
          ⟨⟨"*.b.c.", typeA, classINET, 300⟩, .ipv4 ip⟩)) := by
    rw [lresolve_succ, resolveStep_exact _ _ _ _ _ _ hwq]
  rw [lresolve_succ, resolveStep_wild _ _ _ _ _ hexact hwild]
  rw [show normalizeDomain (Question.name ⟨"a.b.c.", typeA, classINET⟩) = "a.b.c" from rfl]
  rw [show wildcards "a.b.c" = ["*.b.c", "*.c", "*."] from rfl]
  rw [wildcardProbe_cons_found _ _ _ _ _
    (show lresolve rc ip4 ip6 (fuel + 1) ⟨"*.b.c" ++ ".", typeA, classINET⟩
        = some (some (foundReply ⟨"*.b.c.", typeA, classINET⟩
            ⟨⟨"*.b.c.", typeA, classINET, 300⟩, .ipv4 ip⟩)) from hinner)]
  simp [foundReply, respC10]

/-- C10: for a query `a.b.c. A` matched by configured wildcard `*.b.c`, the
    local resolver returns a response whose question section names the
    wildcard (`*.b.c.`, not the query name) while its answer RRs carry the
    original name; the handler writes exactly that response (only the id
    substituted) to the client and stores the same message in the cache. -/
theorem wildcard_keeps_wildcard_question (rc : RecordsConfig) (ip4 ip6 : String → Bool)
    (ip : String) (fuel : Nat) (r : Msg)
    (hA : alookup rc.A "a.b.c" = none)
    (hW : alookup rc.A "*.b.c" = some ip)
    (hip : ip4 ip = true)
    (hr : r.question = [⟨"a.b.c.", typeA, classINET⟩]) :
    lresolve rc ip4 ip6 (fuel + 2) ⟨"a.b.c.", typeA, classINET⟩
      = some (some (respC10 ip)) ∧
    (respC10 ip).question = [⟨"*.b.c.", typeA, classINET⟩] ∧
    (respC10 ip).question ≠ [⟨"a.b.c.", typeA, classINET⟩] ∧
    (∀ rr ∈ (respC10 ip).answer, rr.hdr.name = "a.b.c.") ∧
    serveDNS (fun _ => none)
        (fun q' => (lresolve rc ip4 ip6 (fuel + 2) q').getD none)
        (fun _ => .error .allFailed) r
      = ⟨{ respC10 ip with id := r.id },
         [(generateCacheKey ⟨"a.b.c.", typeA, classINET⟩,
           { respC10 ip with id := r.id }, 300)]⟩ := by
  have hres := wildcard_resolution_steps rc ip4 ip6 ip fuel hA hW hip
  refine ⟨hres, rfl, by simp [respC10], by simp [respC10], ?_⟩
  have hlocal : (lresolve rc ip4 ip6 (fuel + 2)
      (⟨"a.b.c.", typeA, classINET⟩ : Question)).getD none = some (respC10 ip) := by
    simp [hres]
  have hsup : isSupportedType typeA = true := by decide
  simp only [serveDNS, setReply, hr]
  simp [hsup, hlocal, extractTTL, respC10]

/-- Records table for the C10 witness. -/
def rcC10 : RecordsConfig := { A := [("*.b.c", "192.0.2.7")] }

/-- Inbound request for the C10 witness. -/
def rC10 : Msg := ⟨9, false, false, false, false, 0, [⟨"a.b.c.", typeA, classINET⟩], []⟩

/-- Witness for `wildcard_keeps_wildcard_question` at a concrete table,
    address and request. -/
theorem wildcard_keeps_wildcard_question_witness :
    lresolve rcC10 (fun s => s == "192.0.2.7") (fun _ => false) (0 + 2)
        ⟨"a.b.c.", typeA, classINET⟩
      = some (some (respC10 "192.0.2.7")) ∧
    (respC10 "192.0.2.7").question = [⟨"*.b.c.", typeA, classINET⟩] ∧
    (respC10 "192.0.2.7").question ≠ [⟨"a.b.c.", typeA, classINET⟩] ∧
    (∀ rr ∈ (respC10 "192.0.2.7").answer, rr.hdr.name = "a.b.c.") ∧
    serveDNS (fun _ => none)
        (fun q' => (lresolve rcC10 (fun s => s == "192.0.2.7") (fun _ => false) (0 + 2) q').getD none)
        (fun _ => .error .allFailed) rC10
      = ⟨{ respC10 "192.0.2.7" with id := rC10.id },
         [(generateCacheKey ⟨"a.b.c.", typeA, classINET⟩,
           { respC10 "192.0.2.7" with id := rC10.id }, 300)]⟩ :=
  wildcard_keeps_wildcard_question rcC10 (fun s => s == "192.0.2.7") (fun _ => false)
    "192.0.2.7" 0 rC10 (by decide) (by decide) (by decide) (by decide)

/-! Claim C3: upstream forwarder retry/failover policy. -/

/-- Whether an exchange outcome is an acceptable final answer
    (a response with rcode NOERROR or NXDOMAIN). -/
def accOut : UOutcome → Bool
  | .exchangeErr => false
  | .resp m => decide (m.rcode = rcodeSuccess ∨ m.rcode = rcodeNameError)

/-- The error the loop records for a non-acceptable outcome at server `s`. -/
def recordOf (s : String) : UOutcome → UErr
  | .exchangeErr => .exchangeFailed s
  | .resp m => .badRcode m.rcode

/-- The recorded error after one full failed round over the servers starting
    at index `i0` with previously recorded error `e0`. -/
def roundLastErr (out : Nat → Nat → UOutcome) (a : Nat) :
    List String → Nat → Option UErr → Option UErr
  | [], _, e0 => e0
  | s :: rest, i0, _ => roundLastErr out a rest (i0 + 1) (some (recordOf s (out a i0)))

/-- The expected trace of `k` complete failed rounds starting at round
    `attempt`: each full pass over the servers is followed by exactly one
    back-off sleep of `(round+1) * 100` ms. -/
def fullRoundsTrace (servers : List String) : Nat → Nat → List UEvent
  | _, 0 => []
  | attempt, k + 1 =>
    servers.map UEvent.query ++
      UEvent.sleep ((attempt + 1) * 100) :: fullRoundsTrace servers (attempt + 1) k

/-- The threaded error of a failed round is the record of its last server
    (or the seed when the server list is empty). -/
theorem roundLastErr_eq (out : Nat → Nat → UOutcome) (a : Nat) :
    ∀ (servers : List String) (i0 : Nat) (e0 : Option UErr),
    roundLastErr out a servers i0 e0
      = match servers.getLast? with
        | none => e0
        | some s => some (recordOf s (out a (i0 + servers.length - 1))) := by
  intro servers
  induction servers with
  | nil => intro i0 e0; rfl
  | cons s rest ih =>
    intro i0 e0
    show roundLastErr out a rest (i0 + 1) (some (recordOf s (out a i0))) = _
    rw [ih]
    cases rest with
    | nil => simp [List.getLast?]
    | cons t ts =>
      simp only [List.getLast?_cons_cons, List.length_cons]
      rw [show i0 + 1 + (ts.length + 1) - 1 = i0 + (ts.length + 1 + 1) - 1 from by omega]
      cases hgl : (t :: ts).getLast? with
      | none => simp [List.getLast?_eq_none_iff] at hgl
      | some u => rfl

/-- A round in which no outcome is acceptable queries every server in order
    and returns no response. -/
theorem tryServers_all_miss (out : Nat → Nat → UOutcome) (a : Nat) :
    ∀ (rest : List String) (i0 : Nat) (e0 : Option UErr),
    (∀ j, j < rest.length → accOut (out a (i0 + j)) = false) →
    tryServers out a rest i0 e0
      = (none, roundLastErr out a rest i0 e0, rest.map UEvent.query) := by
  intro rest
  induction rest with
  | nil => intro i0 e0 h; rfl
  | cons s rest ih =>
    intro i0 e0 h
    have h0 : accOut (out a i0) = false := by simpa using h 0 (by simp)
    have hshift : ∀ j, j < rest.length → accOut (out a (i0 + 1 + j)) = false := by
      intro j hj
      have := h (j + 1) (by simpa using Nat.succ_lt_succ hj)
      rwa [show i0 + (j + 1) = i0 + 1 + j from by omega] at this
    match hout : out a i0 with
    | .exchangeErr =>
      simp only [tryServers, hout]
      rw [ih (i0 + 1) (some (.exchangeFailed s)) hshift]
      rw [show (UErr.exchangeFailed s) = recordOf s (out a i0) from by rw [hout]; rfl]
      show (none, roundLastErr out a (s :: rest) i0 e0, _) = _
      simp
    | .resp m =>
      rw [hout] at h0
      have hnot : ¬(m.rcode = rcodeSuccess ∨ m.rcode = rcodeNameError) := by
        simpa [accOut] using h0
      simp only [tryServers, hout, if_neg hnot]
      rw [ih (i0 + 1) (some (.badRcode m.rcode)) hshift]
      rw [show (UErr.badRcode m.rcode) = recordOf s (out a i0) from by rw [hout]; rfl]
      show (none, roundLastErr out a (s :: rest) i0 e0, _) = _
      simp

/-- A round whose first acceptable outcome sits at index `i` returns that
    response having queried exactly the first `i+1` servers. -/
theorem tryServers_hit (out : Nat → Nat → UOutcome) (a : Nat) :
    ∀ (i : Nat) (rest : List String) (i0 : Nat) (e0 : Option UErr) (m : Msg),
    i < rest.length →
    (∀ j, j < i → accOut (out a (i0 + j)) = false) →
    out a (i0 + i) = .resp m →
    (m.rcode = rcodeSuccess ∨ m.rcode = rcodeNameError) →
    (tryServers out a rest i0 e0).1 = some m ∧
    (tryServers out a rest i0 e0).2.2 = (rest.take (i + 1)).map UEvent.query := by
  intro i
  induction i with
  | zero =>
    intro rest i0 e0 m hlen hmiss hout hacc
    match rest with
    | [] => simp at hlen
    | s :: rest =>
      rw [show i0 + 0 = i0 from by omega] at hout
      simp only [tryServers, hout, if_pos hacc]
      simp
  | succ i ih =>
    intro rest i0 e0 m hlen hmiss hout hacc
    match rest with
    | [] => simp at hlen
    | s :: rest =>
      have h0 : accOut (out a i0) = false := by simpa using hmiss 0 (by omega)
      have hshift : ∀ j, j < i → accOut (out a (i0 + 1 + j)) = false := by
        intro j hj
        have := hmiss (j + 1) (by omega)
        rwa [show i0 + (j + 1) = i0 + 1 + j from by omega] at this
      have hout' : out a (i0 + 1 + i) = .resp m := by
        rwa [show i0 + (i + 1) = i0 + 1 + i from by omega] at hout
      have hlen' : i < rest.length := by simpa using hlen
      match hcur : out a i0 with
      | .exchangeErr =>
        simp only [tryServers, hcur]
        have := ih rest (i0 + 1) (some (.exchangeFailed s)) m hlen' hshift hout' hacc
        simp [this.1, this.2]
      | .resp m0 =>
        rw [hcur] at h0
        have hnot : ¬(m0.rcode = rcodeSuccess ∨ m0.rcode = rcodeNameError) := by
          simpa [accOut] using h0
        simp only [tryServers, hcur, if_neg hnot]
        have := ih rest (i0 + 1) (some (.badRcode m0.rcode)) m hlen' hshift hout' hacc
        simp [this.1, this.2]

/-- Re-running a round over the same servers overwrites any previously
    threaded error (or preserves the seed when there are no servers). -/
theorem roundLastErr_absorb (out : Nat → Nat → UOutcome) (a b : Nat)
    (servers : List String) (e0 e1 : Option UErr)
    (h : roundLastErr out b servers 0 e0 = e1) :
    roundLastErr out a servers 0 e1 = roundLastErr out a servers 0 e0 := by
  rw [roundLastErr_eq, roundLastErr_eq]
  cases hgl : servers.getLast? with
  | none =>
    rw [List.getLast?_eq_none_iff] at hgl
    subst hgl
    simp [roundLastErr] at h
    exact h.symm
  | some s => rfl

/-- One-step unfolding of the attempt loop. -/
theorem runAttempts_succ (out : Nat → Nat → UOutcome) (servers : List String)
    (remaining attempt : Nat) (e0 : Option UErr) :
    runAttempts out servers (remaining + 1) attempt e0
      = (let r := tryServers out attempt servers 0 e0
         match r.1 with
         | some m => (some m, r.2.1, r.2.2)
         | none =>
           match remaining with
           | 0 => (none, r.2.1, r.2.2)
           | _ + 1 =>
             let r2 := runAttempts out servers remaining (attempt + 1) r.2.1
             (r2.1, r2.2.1, r.2.2 ++ UEvent.sleep ((attempt + 1) * 100) :: r2.2.2)) := rfl

/-- When every outcome in every remaining round is unacceptable, the loop
    runs all rounds with exactly one sleep between consecutive rounds and
    ends with the last round's recorded error. -/
theorem runAttempts_all_miss (out : Nat → Nat → UOutcome) (servers : List String) :
    ∀ (remaining attempt : Nat) (e0 : Option UErr),
    (∀ a i, attempt ≤ a → a < attempt + remaining + 1 → i < servers.length →
      accOut (out a i) = false) →
    runAttempts out servers (remaining + 1) attempt e0
      = (none, roundLastErr out (attempt + remaining) servers 0 e0,
         fullRoundsTrace servers attempt remaining ++ servers.map UEvent.query) := by
  intro remaining
  induction remaining with
  | zero =>
    intro attempt e0 h
    have hround : ∀ j, j < servers.length → accOut (out attempt (0 + j)) = false := by
      intro j hj
      have := h attempt j (Nat.le_refl _) (by omega) hj
      simpa using this
    rw [runAttempts_succ]
    rw [tryServers_all_miss out attempt servers 0 e0 hround]
    simp [fullRoundsTrace]
  | succ k ih =>
    intro attempt e0 h
    have hround : ∀ j, j < servers.length → accOut (out attempt (0 + j)) = false := by
      intro j hj
      have := h attempt j (Nat.le_refl _) (by omega) hj
      simpa using this
    rw [runAttempts_succ]
    rw [tryServers_all_miss out attempt servers 0 e0 hround]
    have ih2 := ih (attempt + 1) (roundLastErr out attempt servers 0 e0)
      (fun a i ha hb hi => h a i (by omega) (by omega) hi)
    simp only []
    rw [ih2]
    rw [roundLastErr_absorb out (attempt + 1 + k) attempt servers e0
      (roundLastErr out attempt servers 0 e0) rfl]
    rw [show attempt + 1 + k = attempt + (k + 1) from by omega]
    simp [fullRoundsTrace]

/-- When the first acceptable outcome lives in round `attempt + d` at index
    `i`, the loop returns it after `d` complete rounds (each followed by its
    sleep) and `i+1` queries of the final partial round. -/
theorem runAttempts_hit (out : Nat → Nat → UOutcome) (servers : List String) :
    ∀ (d remaining attempt : Nat) (e0 : Option UErr) (i : Nat) (m : Msg),
    d < remaining →
    (∀ a j, attempt ≤ a → a < attempt + d → j < servers.length → accOut (out a j) = false) →
    (∀ j, j < i → accOut (out (attempt + d) j) = false) →
    out (attempt + d) i = .resp m →
    (m.rcode = rcodeSuccess ∨ m.rcode = rcodeNameError) →
    i < servers.length →
    (runAttempts out servers remaining attempt e0).1 = some m ∧
    (runAttempts out servers remaining attempt e0).2.2
      = fullRoundsTrace servers attempt d ++ (servers.take (i + 1)).map UEvent.query := by
  intro d
  induction d with
  | zero =>
    intro remaining attempt e0 i m hd hmissall hmissi hout hacc hi
    match remaining, hd with
    | k + 1, _ =>
      have hhit := tryServers_hit out attempt i servers 0 e0 m hi
        (fun j hj => by simpa using hmissi j hj)
        (by simpa using hout) hacc
      rw [runAttempts_succ]
      simp only []
      rw [hhit.1]
      simp [hhit.2, fullRoundsTrace]
  | succ e ih =>
    intro remaining attempt e0 i m hd hmissall hmissi hout hacc hi
    match remaining, hd with
    | k + 1, _ =>
      have hround : ∀ j, j < servers.length → accOut (out attempt (0 + j)) = false := by
        intro j hj
        have := hmissall attempt j (Nat.le_refl _) (by omega) hj
        simpa using this
      have hk : 0 < k := by omega
      match k, hk with
      | k' + 1, _ =>
        have ihres := ih (k' + 1) (attempt + 1) (roundLastErr out attempt servers 0 e0) i m
          (by omega)
          (fun a j ha hb hj => hmissall a j (by omega) (by omega) hj)
          (fun j hj => by
            have := hmissi j hj
            rwa [show attempt + (e + 1) = attempt + 1 + e from by omega] at this)
          (by rwa [show attempt + (e + 1) = attempt + 1 + e from by omega] at hout)
          hacc hi
        rw [runAttempts_succ]
        rw [tryServers_all_miss out attempt servers 0 e0 hround]
        simp only []
        constructor
        · simp [ihres.1]
        · simp [ihres.1, ihres.2, fullRoundsTrace]

/-- C3: a NOERROR or NXDOMAIN response is returned immediately — the trace
    stops at that query, with no further servers and no retry; any other
    rcode or transport error moves to the next server and then the next
    round; sleeps of `(attempt+1) * 100` ms appear exactly between rounds,
    never between servers of one round; and exhaustion returns an error
    wrapping the last recorded error, or the synthesized all-servers-failed
    error when none was recorded (empty server list) — never an answer. -/
theorem upstream_resolve_spec (out : Nat → Nat → UOutcome) (servers : List String)
    (retries : Nat) (q : Question) :
    (∀ a i m, a ≤ retries → i < servers.length →
      (∀ a' i', i' < servers.length →
        (a' < a ∨ (a' = a ∧ i' < i)) → accOut (out a' i') = false) →
      out a i = .resp m →
      (m.rcode = rcodeSuccess ∨ m.rcode = rcodeNameError) →
      uresolve out servers retries q
        = (.ok m, fullRoundsTrace servers 0 a ++ (servers.take (i + 1)).map UEvent.query)) ∧
    ((∀ a i, a ≤ retries → i < servers.length → accOut (out a i) = false) →
      uresolve out servers retries q
        = (.error (.resolveFailed q.name (retries + 1)
            (match servers.getLast? with
             | none => .allFailed
             | some s => recordOf s (out retries (servers.length - 1)))),
           fullRoundsTrace servers 0 retries ++ servers.map UEvent.query)) := by
  constructor
  · intro a i m ha hi hmiss hout hacc
    have hrun := runAttempts_hit out servers a (retries + 1) 0 none i m
      (by omega)
      (fun a' j ha' hb hj => hmiss a' j hj (Or.inl (by omega)))
      (fun j hj => by
        have := hmiss a j (by omega) (Or.inr ⟨rfl, hj⟩)
        simpa using this)
      (by simpa using hout) hacc hi
    simp only [uresolve]
    rw [hrun.1]
    simp only []
    rw [hrun.2]
  · intro hmiss
    have hrun := runAttempts_all_miss out servers retries 0 none
      (fun a i ha hb hi => hmiss a i (by omega) hi)
    simp only [uresolve]
    rw [hrun]
    simp only []
    rw [roundLastErr_eq]
    cases hgl : servers.getLast? with
    | none => simp
    | some s =>
      simp only []
      rw [show 0 + retries = retries from by omega,
          show 0 + servers.length - 1 = servers.length - 1 from by omega]

/-- An NXDOMAIN response (acceptable final answer). -/
def mNX : Msg := ⟨5, true, false, true, false, rcodeNameError, [], []⟩
/-- A REFUSED response (failover-eligible). -/
def mRefused : Msg := ⟨5, true, false, true, false, 5, [], []⟩

/-- Witness outcomes: round 0 sees a transport error then REFUSED; round 1's
    first server answers NXDOMAIN. -/
def outC3 : Nat → Nat → UOutcome := fun a i =>
  if a = 0 ∧ i = 0 then .exchangeErr
  else if a = 0 ∧ i = 1 then .resp mRefused
  else .resp mNX

/-- Witness for `upstream_resolve_spec`: the NXDOMAIN from round 1, server 0
    is returned; the trace shows the full failed round, one 100 ms sleep, and
    the single successful query. -/
theorem upstream_resolve_spec_witness :
    uresolve outC3 ["s1", "s2"] 1 ⟨"x.", typeA, classINET⟩
      = (.ok mNX, [.query "s1", .query "s2", .sleep 100, .query "s1"]) := by
  have h := (upstream_resolve_spec outC3 ["s1", "s2"] 1 ⟨"x.", typeA, classINET⟩).1
    1 0 mNX (by omega) (by simp)
    (fun a' i' hi hc => by
      have ha' : a' = 0 := by
        rcases hc with h1 | ⟨h1, h2⟩
        · omega
        · omega
      subst ha'
      simp only [List.length_cons, List.length_nil] at hi
      have : i' = 0 ∨ i' = 1 := by omega
      rcases this with rfl | rfl <;> decide)
    (by decide) (by decide)
  rw [h]
  rfl

/-! The LRU cache (`cache.LRUCache`).  The Go map `items` becomes an
    association list, the `container/list` recency list becomes the list of
    the entries its elements hold (front = most recently used); instants are
    naturals and `Response.Copy()` of an immutable value is the value.  The
    single struct `CacheEntry` also stands for `SerializableCacheEntry`
    (same three fields). -/

/-- A cache entry: key, owned response, absolute expiry instant. -/
structure CacheEntry where
  key : String
  response : Msg
  expiresAt : Nat
deriving DecidableEq, Repr

/-- `cache.LRUCache`: capacity, default TTL, map and recency list. -/
structure LRUCache where
  capacity : Nat
  defaultTTL : Nat
  items : List (String × CacheEntry)
  evictList : List CacheEntry
deriving DecidableEq, Repr

/-- `NewLRUCache`: empty map and list. -/
def emptyCache (capacity defaultTTL : Nat) : LRUCache :=
  ⟨capacity, defaultTTL, [], []⟩

/-- Go map assignment `items[k] = e`: overwrite the binding if present,
    otherwise add one. -/
def insertItem (items : List (String × CacheEntry)) (k : String)
    (e : CacheEntry) : List (String × CacheEntry) :=
  if items.any (fun p => p.1 == k) then
    items.map (fun p => if p.1 == k then (k, e) else p)
  else (k, e) :: items

/-- Go `delete(items, k)`. -/
def eraseItem (items : List (String × CacheEntry)) (k : String) :
    List (String × CacheEntry) :=
  items.filter (fun p => !(p.1 == k))

/-- `LRUCache.Delete`: remove the entry's list element and map binding if
    present; idempotent. -/
def LRUCache.Delete (c : LRUCache) (k : String) : LRUCache :=
  match alookup c.items k with
  | some e => { c with items := eraseItem c.items k, evictList := c.evictList.erase e }
  | none => c

/-- `LRUCache.Get`: miss on absence; an expired entry is deleted and reported
    as a miss; a live hit moves the entry to the front and returns a copy of
    the response. -/
def LRUCache.Get (c : LRUCache) (now : Nat) (k : String) : Option Msg × LRUCache :=
  match alookup c.items k with
  | none => (none, c)
  | some e =>
    if e.expiresAt < now then (none, c.Delete k)
    else (some e.response, { c with evictList := e :: c.evictList.erase e })

/-- `removeOldest`: drop the back of the recency list and its key's binding. -/
def LRUCache.removeOldest (c : LRUCache) : LRUCache :=
  match c.evictList.getLast? with
  | some e => { c with items := eraseItem c.items e.key, evictList := c.evictList.dropLast }
  | none => c

/-- `LRUCache.Set`: zero ttl means the default TTL; an existing key is
    updated in place (response, expiry, recency) and nothing is evicted; a
    new key first evicts the oldest entry when the list is at capacity, then
    is pushed to the front. -/
def LRUCache.Set (c : LRUCache) (now : Nat) (k : String) (response : Msg)
    (ttl : Nat) : LRUCache :=
  let ttl := if ttl = 0 then c.defaultTTL else ttl
  match alookup c.items k with
  | some e =>
    let e' := { e with response := response, expiresAt := now + ttl }
    { c with items := insertItem c.items k e', evictList := e' :: c.evictList.erase e }
  | none =>
    let c' := if c.capacity ≤ c.evictList.length then c.removeOldest else c
    let e : CacheEntry := ⟨k, response, now + ttl⟩
    { c' with items := insertItem c'.items k e, evictList := e :: c'.evictList }

/-- `LRUCache.Clear`. -/
def LRUCache.Clear (c : LRUCache) : LRUCache :=
  { c with items := [], evictList := [] }

/-- `LRUCache.Size`: the map's entry count. -/
def LRUCache.Size (c : LRUCache) : Nat := c.items.length

/-- `removeExpired` (the eviction sweeper's body): collect the expired list
    elements, then remove each from the list and delete its key. -/
def LRUCache.removeExpired (c : LRUCache) (now : Nat) : LRUCache :=
  let expired := c.evictList.filter (fun e => decide (e.expiresAt < now))
  { c with
    evictList := c.evictList.filter (fun e => !(decide (e.expiresAt < now))),
    items := expired.foldl (fun its e => eraseItem its e.key) c.items }

/-- `DumpToFile`: serialize the non-expired entries (map iteration order). -/
def LRUCache.dumpEntries (c : LRUCache) (now : Nat) : List CacheEntry :=
  (c.items.map Prod.snd).filter (fun e => decide (now < e.expiresAt))

/-- One iteration of the `LoadFromFile` loop: skip expired entries, evict the
    oldest when the list is at capacity, push the loaded entry. -/
def LRUCache.loadOne (c : LRUCache) (now : Nat) (e : CacheEntry) : LRUCache :=
  if now < e.expiresAt then
    let c' := if c.capacity ≤ c.evictList.length then c.removeOldest else c
    { c' with items := insertItem c'.items e.key e, evictList := e :: c'.evictList }
  else c

/-- `LoadFromFile` over already-decoded entries. -/
def LRUCache.LoadFromFile (c : LRUCache) (now : Nat)
    (entries : List CacheEntry) : LRUCache :=
  entries.foldl (fun c' e => c'.loadOne now e) c

/-- The externally callable mutating cache operations. -/
inductive CacheOp where
  | get (now : Nat) (key : String)
  | set (now : Nat) (key : String) (response : Msg) (ttl : Nat)
  | del (key : String)
  | clear
  | sweep (now : Nat)
  | restore (now : Nat) (entries : List CacheEntry)
deriving DecidableEq, Repr

/-- State effect of one cache operation. -/
def applyOp (c : LRUCache) : CacheOp → LRUCache
  | .get now k => (c.Get now k).2
  | .set now k resp ttl => c.Set now k resp ttl
  | .del k => c.Delete k
  | .clear => c.Clear
  | .sweep now => c.removeExpired now
  | .restore now entries => c.LoadFromFile now entries

/-- Run a sequence of cache operations. -/
def runOps (c : LRUCache) (ops : List CacheOp) : LRUCache :=
  ops.foldl applyOp c

/-! Claims C6-C9: cache structure lemmas and the coherence invariant. -/

/-- The cache coherence invariant: the map is within capacity, its keys are
    unique, every entry records its own key, and the recency list holds
    exactly the map's entries (as a multiset). -/
def CacheInv (c : LRUCache) : Prop :=
  c.items.length ≤ c.capacity ∧
  (c.items.map Prod.fst).Nodup ∧
  (∀ p ∈ c.items, p.2.key = p.1) ∧
  c.evictList.Perm (c.items.map Prod.snd)

/-- A successful lookup exposes its binding. -/
theorem alookup_some_mem {items : List (String × CacheEntry)} {k : String}
    {e : CacheEntry} (h : alookup items k = some e) : (k, e) ∈ items := by
  unfold alookup at h
  cases hf : items.find? (fun p => p.1 == k) with
  | none => rw [hf] at h; exact absurd h (by simp)
  | some p =>
    rw [hf] at h
    have hp := List.find?_some hf
    have hm := List.mem_of_find?_eq_some hf
    simp at h hp
    rw [← h, ← hp]
    exact hm

/-- A failed lookup means no binding carries the key. -/
theorem alookup_none {items : List (String × CacheEntry)} {k : String}
    (h : alookup items k = none) : ∀ p ∈ items, p.1 ≠ k := by
  intro p hp
  unfold alookup at h
  cases hf : items.find? (fun p => p.1 == k) with
  | some q => rw [hf] at h; exact absurd h (by simp)
  | none =>
    have := List.find?_eq_none.mp hf p hp
    simpa using this

/-- A present binding makes the lookup succeed. -/
theorem alookup_isSome_of_mem {items : List (String × CacheEntry)} {k : String}
    {e : CacheEntry} (h : (k, e) ∈ items) : alookup items k ≠ none := by
  intro hn
  exact alookup_none hn (k, e) h rfl

/-- With unique keys, a key determines its entry. -/
theorem binding_unique {items : List (String × CacheEntry)}
    (hnd : (items.map Prod.fst).Nodup) {k : String} {e e' : CacheEntry}
    (h1 : (k, e) ∈ items) (h2 : (k, e') ∈ items) : e = e' := by
  induction items with
  | nil => simp at h1
  | cons p rest ih =>
    simp only [List.map_cons, List.nodup_cons] at hnd
    rcases List.mem_cons.mp h1 with h1h | h1t
    · rcases List.mem_cons.mp h2 with h2h | h2t
      · rw [← h1h] at h2h
        exact (Prod.mk.injEq _ _ _ _ ▸ h2h).2.symm ▸ rfl
      · exfalso
        apply hnd.1
        rw [← h1h]
        exact List.mem_map.mpr ⟨(k, e'), h2t, rfl⟩
    · rcases List.mem_cons.mp h2 with h2h | h2t
      · exfalso
        apply hnd.1
        rw [← h2h]
        exact List.mem_map.mpr ⟨(k, e), h1t, rfl⟩
      · exact ih hnd.2 h1t h2t

/-- Deleting an absent key is a no-op. -/
theorem eraseItem_of_not_mem {items : List (String × CacheEntry)} {k : String}
    (h : ∀ p ∈ items, p.1 ≠ k) : eraseItem items k = items := by
  induction items with
  | nil => rfl
  | cons p rest ih =>
    unfold eraseItem
    rw [List.filter_cons]
    have hp : (!(p.1 == k)) = true := by
      simp [h p (List.mem_cons_self p rest)]
    rw [if_pos hp]
    have := ih (fun q hq => h q (List.mem_cons_of_mem p hq))
    unfold eraseItem at this
    rw [this]

/-- With unique keys, the map is its binding at `k` plus the rest. -/
theorem perm_cons_eraseItem {items : List (String × CacheEntry)}
    (hnd : (items.map Prod.fst).Nodup) {k : String} {e : CacheEntry}
    (hmem : (k, e) ∈ items) :
    items.Perm ((k, e) :: eraseItem items k) := by
  induction items with
  | nil => simp at hmem
  | cons p rest ih =>
    simp only [List.map_cons, List.nodup_cons] at hnd
    by_cases hpk : p.1 = k
    · have hpe : p = (k, e) := by
        rcases List.mem_cons.mp hmem with hh | ht
        · exact hh.symm
        · exfalso
          apply hnd.1
          rw [hpk]
          exact List.mem_map.mpr ⟨(k, e), ht, rfl⟩
      have hrest : ∀ q ∈ rest, q.1 ≠ k := by
        intro q hq hqk
        apply hnd.1
        rw [hpk, ← hqk]
        exact List.mem_map.mpr ⟨q, hq, rfl⟩
      unfold eraseItem
      rw [List.filter_cons]
      have : (!(p.1 == k)) = false := by simp [hpk]
      rw [if_neg (by simp [this])]
      have := eraseItem_of_not_mem hrest
      unfold eraseItem at this
      rw [this, hpe]
    · have hmem' : (k, e) ∈ rest := by
        rcases List.mem_cons.mp hmem with hh | ht
        · exact absurd (by rw [← hh]) hpk
        · exact ht
      unfold eraseItem
      rw [List.filter_cons]
      rw [if_pos (by simp [hpk])]
      have hperm := ih hnd.2 hmem'
      unfold eraseItem at hperm
      exact (hperm.cons p).trans (List.Perm.swap (k, e) p _)

/-- Map assignment of an absent key prepends the binding. -/
theorem insertItem_fresh {items : List (String × CacheEntry)} {k : String}
    (e : CacheEntry) (h : alookup items k = none) :
    insertItem items k e = (k, e) :: items := by
  unfold insertItem
  rw [if_neg]
  intro hany
  rcases List.any_eq_true.mp hany with ⟨p, hp, hpk⟩
  exact alookup_none h p hp (by simpa using hpk)

/-- Map assignment of a present key rewrites that binding in place. -/
theorem insertItem_mem {items : List (String × CacheEntry)} {k : String}
    {e : CacheEntry} (e' : CacheEntry) (h : (k, e) ∈ items) :
    insertItem items k e' = items.map (fun p => if p.1 == k then (k, e') else p) := by
  unfold insertItem
  rw [if_pos]
  exact List.any_eq_true.mpr ⟨(k, e), h, by simp⟩

/-- In-place replacement leaves the key sequence unchanged. -/
theorem replace_keys (items : List (String × CacheEntry)) (k : String)
    (e' : CacheEntry) :
    (items.map (fun p => if p.1 == k then (k, e') else p)).map Prod.fst
      = items.map Prod.fst := by
  rw [List.map_map]
  apply List.map_congr_left
  intro p hp
  by_cases hpk : p.1 = k
  · simp [hpk]
  · simp [hpk]

/-- In-place replacement is, up to permutation, the new binding plus the
    map without the key. -/
theorem replace_perm {items : List (String × CacheEntry)}
    (hnd : (items.map Prod.fst).Nodup) {k : String} {e : CacheEntry}
    (e' : CacheEntry) (hmem : (k, e) ∈ items) :
    (items.map (fun p => if p.1 == k then (k, e') else p)).Perm
      ((k, e') :: eraseItem items k) := by
  induction items with
  | nil => simp at hmem
  | cons p rest ih =>
    simp only [List.map_cons, List.nodup_cons] at hnd
    by_cases hpk : p.1 = k
    · have hrest : ∀ q ∈ rest, q.1 ≠ k := by
        intro q hq hqk
        apply hnd.1
        rw [hpk, ← hqk]
        exact List.mem_map.mpr ⟨q, hq, rfl⟩
      rw [List.map_cons, if_pos (by simp [hpk])]
      have hmap : rest.map (fun p => if p.1 == k then (k, e') else p) = rest := by
        have : ∀ q ∈ rest, (if q.1 == k then (k, e') else q) = q := by
          intro q hq
          rw [if_neg (by simp [hrest q hq])]
        rw [List.map_congr_left this]
        exact List.map_id rest
      rw [hmap]
      unfold eraseItem
      rw [List.filter_cons, if_neg (by simp [hpk])]
      have := eraseItem_of_not_mem hrest
      unfold eraseItem at this
      rw [this]
    · have hmem' : (k, e) ∈ rest := by
        rcases List.mem_cons.mp hmem with hh | ht
        · exact absurd (by rw [← hh]) hpk
        · exact ht
      rw [List.map_cons, if_neg (by simp [hpk])]
      unfold eraseItem
      rw [List.filter_cons, if_pos (by simp [hpk])]
      have hperm := ih hnd.2 hmem'
      unfold eraseItem at hperm
      exact (hperm.cons p).trans (List.Perm.swap (k, e') p _)

/-- Entry-level version of `perm_cons_eraseItem`. -/
theorem mapSnd_perm_erase {items : List (String × CacheEntry)}
    (hnd : (items.map Prod.fst).Nodup) {k : String} {e : CacheEntry}
    (hmem : (k, e) ∈ items) :
    (items.map Prod.snd).Perm (e :: (eraseItem items k).map Prod.snd) :=
  (perm_cons_eraseItem hnd hmem).map Prod.snd

/-- Deleting keys never makes an absent key present. -/
theorem alookup_eraseItem_none {items : List (String × CacheEntry)}
    {k' : String} (k : String) (h : alookup items k' = none) :
    alookup (eraseItem items k) k' = none := by
  have hf : (eraseItem items k).find? (fun p => p.1 == k') = none := by
    rw [List.find?_eq_none]
    intro p hp
    have hp' : p ∈ items := List.mem_of_mem_filter hp
    simpa using alookup_none h p hp'
  unfold alookup
  rw [hf]

/-- Under the invariant, every recency-list entry has its binding in the
    map. -/
theorem entry_binding {c : LRUCache} (h : CacheInv c) {e : CacheEntry}
    (hmem : e ∈ c.evictList) : (e.key, e) ∈ c.items := by
  obtain ⟨_, _, hkc, hperm⟩ := h
  have hm : e ∈ c.items.map Prod.snd := hperm.mem_iff.mp hmem
  rcases List.mem_map.mp hm with ⟨p, hp, hpe⟩
  have hpk := hkc p hp
  have hep : (e.key, e) = p := by
    rw [← hpe, hpk]
  rw [hep]
  exact hp

/-- Under the invariant, a looked-up entry records the key it is filed
    under. -/
theorem lookup_key_field {c : LRUCache} (h : CacheInv c) {k : String}
    {e : CacheEntry} (hl : alookup c.items k = some e) : e.key = k :=
  h.2.2.1 (k, e) (alookup_some_mem hl)

/-- `Delete` preserves the invariant. -/
theorem cacheInv_Delete (c : LRUCache) (k : String) (h : CacheInv c) :
    CacheInv (c.Delete k) := by
  unfold LRUCache.Delete
  cases hl : alookup c.items k with
  | none => exact h
  | some e =>
    obtain ⟨hlen, hnd, hkc, hperm⟩ := h
    have hmem : (k, e) ∈ c.items := alookup_some_mem hl
    refine ⟨?_, ?_, ?_, ?_⟩
    · exact le_trans (List.length_filter_le _ _) hlen
    · exact ((List.filter_sublist _).map Prod.fst).nodup hnd
    · intro p hp
      exact hkc p (List.mem_of_mem_filter hp)
    · have h1 : (c.evictList.erase e).Perm ((c.items.map Prod.snd).erase e) :=
        hperm.erase e
      have h2 : ((c.items.map Prod.snd).erase e).Perm
          ((e :: (eraseItem c.items k).map Prod.snd).erase e) :=
        (mapSnd_perm_erase hnd hmem).erase e
      rw [List.erase_cons_head] at h2
      exact h1.trans h2

/-- `Get` preserves the invariant (live hit, expired hit, miss). -/
theorem cacheInv_Get (c : LRUCache) (now : Nat) (k : String) (h : CacheInv c) :
    CacheInv (c.Get now k).2 := by
  unfold LRUCache.Get
  cases hl : alookup c.items k with
  | none => exact h
  | some e =>
    by_cases hex : e.expiresAt < now
    · simpa [hex] using cacheInv_Delete c k h
    · simp only [if_neg hex]
      obtain ⟨hlen, hnd, hkc, hperm⟩ := h
      refine ⟨hlen, hnd, hkc, ?_⟩
      have hmem : e ∈ c.evictList := by
        apply hperm.mem_iff.mpr
        exact List.mem_map.mpr ⟨(k, e), alookup_some_mem hl, rfl⟩
      exact (List.perm_cons_erase hmem).symm.trans hperm

/-- `removeOldest` preserves the invariant, shrinks the map by one when the
    list is non-empty, and keeps absent keys absent. -/
theorem cacheInv_removeOldest (c : LRUCache) (h : CacheInv c) :
    CacheInv c.removeOldest ∧
    (c.evictList ≠ [] → c.removeOldest.items.length + 1 = c.items.length) ∧
    (∀ k', alookup c.items k' = none → alookup c.removeOldest.items k' = none) := by
  unfold LRUCache.removeOldest
  cases hgl : c.evictList.getLast? with
  | none =>
    rw [List.getLast?_eq_none_iff] at hgl
    exact ⟨h, fun hne => absurd hgl hne, fun k' hk' => hk'⟩
  | some L =>
    obtain ⟨hlen, hnd, hkc, hperm⟩ := h
    have hsplit : c.evictList.dropLast ++ [L] = c.evictList :=
      List.dropLast_append_getLast? L hgl
    have hLmem : L ∈ c.evictList := by
      rw [← hsplit]; simp
    have hbind : (L.key, L) ∈ c.items := entry_binding ⟨hlen, hnd, hkc, hperm⟩ hLmem
    have hsnd : (c.items.map Prod.snd).Perm (L :: (eraseItem c.items L.key).map Prod.snd) :=
      mapSnd_perm_erase hnd hbind
    have hinit : (c.evictList.dropLast ++ [L]).Perm (c.items.map Prod.snd) := by
      rw [hsplit]; exact hperm
    have hcons : (L :: c.evictList.dropLast).Perm
        (L :: (eraseItem c.items L.key).map Prod.snd) :=
      ((List.perm_append_singleton L c.evictList.dropLast).symm.trans hinit).trans hsnd
    have hdperm : c.evictList.dropLast.Perm ((eraseItem c.items L.key).map Prod.snd) :=
      hcons.cons_inv
    have hlen2 : (eraseItem c.items L.key).length + 1 = c.items.length := by
      have := (perm_cons_eraseItem hnd hbind).length_eq
      simpa using this.symm
    refine ⟨⟨?_, ?_, ?_, ?_⟩, ?_, ?_⟩
    · show (eraseItem c.items L.key).length ≤ c.capacity
      omega
    · show ((eraseItem c.items L.key).map Prod.fst).Nodup
      exact ((List.filter_sublist _).map Prod.fst).nodup hnd
    · show ∀ p ∈ eraseItem c.items L.key, p.2.key = p.1
      exact fun p hp => hkc p (List.mem_of_mem_filter hp)
    · show c.evictList.dropLast.Perm ((eraseItem c.items L.key).map Prod.snd)
      exact hdperm
    · intro _
      show (eraseItem c.items L.key).length + 1 = c.items.length
      exact hlen2
    · intro k' hk'
      show alookup (eraseItem c.items L.key) k' = none
      exact alookup_eraseItem_none L.key hk'

/-- Updating an existing key in place preserves the invariant. -/
theorem cacheInv_replace (c : LRUCache) (k : String) (e e' : CacheEntry)
    (h : CacheInv c) (hl : alookup c.items k = some e) (hk : e'.key = k) :
    CacheInv { c with items := insertItem c.items k e',
                      evictList := e' :: c.evictList.erase e } := by
  obtain ⟨hlen, hnd, hkc, hperm⟩ := h
  have hmem := alookup_some_mem hl
  refine ⟨?_, ?_, ?_, ?_⟩
  · show (insertItem c.items k e').length ≤ c.capacity
    rw [insertItem_mem e' hmem, List.length_map]
    exact hlen
  · show ((insertItem c.items k e').map Prod.fst).Nodup
    rw [insertItem_mem e' hmem, replace_keys]
    exact hnd
  · show ∀ p ∈ insertItem c.items k e', p.2.key = p.1
    rw [insertItem_mem e' hmem]
    intro p hp
    rcases List.mem_map.mp hp with ⟨q, hq, hqe⟩
    by_cases hqk : q.1 = k
    · rw [← hqe, if_pos (by simp [hqk])]
      exact hk
    · rw [← hqe, if_neg (by simp [hqk])]
      exact hkc q hq
  · show (e' :: c.evictList.erase e).Perm ((insertItem c.items k e').map Prod.snd)
    have h1 : (c.evictList.erase e).Perm ((c.items.map Prod.snd).erase e) := hperm.erase e
    have h2 : ((c.items.map Prod.snd).erase e).Perm
        ((e :: (eraseItem c.items k).map Prod.snd).erase e) :=
      (mapSnd_perm_erase hnd hmem).erase e
    rw [List.erase_cons_head] at h2
    have h3 : ((insertItem c.items k e').map Prod.snd).Perm
        (e' :: (eraseItem c.items k).map Prod.snd) := by
      rw [insertItem_mem e' hmem]
      exact (replace_perm hnd e' hmem).map Prod.snd
    exact ((h1.trans h2).cons e').trans h3.symm

/-- Inserting a fresh key below capacity preserves the invariant. -/
theorem cacheInv_pushFresh (c : LRUCache) (k : String) (e : CacheEntry)
    (h : CacheInv c) (hl : alookup c.items k = none) (hk : e.key = k)
    (hroom : c.items.length < c.capacity) :
    CacheInv { c with items := insertItem c.items k e,
                      evictList := e :: c.evictList } := by
  obtain ⟨hlen, hnd, hkc, hperm⟩ := h
  refine ⟨?_, ?_, ?_, ?_⟩
  · show (insertItem c.items k e).length ≤ c.capacity
    rw [insertItem_fresh e hl]
    simpa using hroom
  · show ((insertItem c.items k e).map Prod.fst).Nodup
    rw [insertItem_fresh e hl]
    simp only [List.map_cons, List.nodup_cons]
    refine ⟨?_, hnd⟩
    intro hkm
    rcases List.mem_map.mp hkm with ⟨q, hq, hqe⟩
    exact alookup_none hl q hq hqe
  · show ∀ p ∈ insertItem c.items k e, p.2.key = p.1
    rw [insertItem_fresh e hl]
    intro p hp
    rcases List.mem_cons.mp hp with hh | ht
    · rw [hh]
      exact hk
    · exact hkc p ht
  · show (e :: c.evictList).Perm ((insertItem c.items k e).map Prod.snd)
    rw [insertItem_fresh e hl]
    exact hperm.cons e

/-- Under the invariant the recency list and the map have equal size. -/
theorem evictList_length_eq (c : LRUCache) (h : CacheInv c) :
    c.evictList.length = c.items.length := by
  have := h.2.2.2.length_eq
  simpa using this

/-- `Set` preserves the invariant for positive capacity. -/
theorem cacheInv_Set (c : LRUCache) (now : Nat) (k : String) (resp : Msg)
    (ttl : Nat) (h : CacheInv c) (hcap : 0 < c.capacity) :
    CacheInv (c.Set now k resp ttl) := by
  unfold LRUCache.Set
  cases hl : alookup c.items k with
  | some e =>
    have hk : e.key = k := lookup_key_field h hl
    exact cacheInv_replace c k e _ h hl (by simpa using hk)
  | none =>
    by_cases hfull : c.capacity ≤ c.evictList.length
    · have hlen := evictList_length_eq c h
      have hro := cacheInv_removeOldest c h
      have hne : c.evictList ≠ [] := by
        intro hnil
        rw [hnil] at hfull
        simp at hfull
        omega
      have hcapro : c.removeOldest.capacity = c.capacity := by
        unfold LRUCache.removeOldest
        cases c.evictList.getLast? <;> rfl
      have hroom : c.removeOldest.items.length < c.removeOldest.capacity := by
        rw [hcapro]
        have := hro.2.1 hne
        have hle := h.1
        omega
      have hfresh : alookup c.removeOldest.items k = none := hro.2.2 k hl
      have hpush := cacheInv_pushFresh c.removeOldest k
        ⟨k, resp, now + if ttl = 0 then c.defaultTTL else ttl⟩
        hro.1 hfresh rfl hroom
      simp only [if_pos hfull]
      exact hpush
  
    · have hlen := evictList_length_eq c h
      have hroom : c.items.length < c.capacity := by omega
      have hpush := cacheInv_pushFresh c k
        ⟨k, resp, now + if ttl = 0 then c.defaultTTL else ttl⟩ h hl rfl hroom
      simp only [if_neg hfull]
      exact hpush

/-- Lookup skips a binding with a different key. -/
theorem alookup_cons_ne (items : List (String × CacheEntry)) (k : String)
    (e : CacheEntry) (k' : String) (hne : k' ≠ k) :
    alookup ((k, e) :: items) k' = alookup items k' := by
  unfold alookup
  rw [List.find?_cons_of_neg]
  simp
  exact fun hkk => absurd hkk.symm hne

/-- Eviction does not change the configured capacity. -/
theorem removeOldest_capacity (c : LRUCache) : c.removeOldest.capacity = c.capacity := by
  unfold LRUCache.removeOldest
  cases c.evictList.getLast? <;> rfl

/-- Loading one snapshot entry does not change the capacity. -/
theorem loadOne_capacity (c : LRUCache) (now : Nat) (e : CacheEntry) :
    (c.loadOne now e).capacity = c.capacity := by
  unfold LRUCache.loadOne
  by_cases hex : now < e.expiresAt
  · simp only [if_pos hex]
    by_cases hfull : c.capacity ≤ c.evictList.length
    · simp only [if_pos hfull]
      exact removeOldest_capacity c
    · simp only [if_neg hfull]
  · simp only [if_neg hex]

/-- Loading one snapshot entry whose key is fresh (when non-expired)
    preserves the invariant. -/
theorem cacheInv_loadOne (c : LRUCache) (now : Nat) (e : CacheEntry)
    (h : CacheInv c) (hcap : 0 < c.capacity)
    (hfresh : now < e.expiresAt → alookup c.items e.key = none) :
    CacheInv (c.loadOne now e) := by
  unfold LRUCache.loadOne
  by_cases hex : now < e.expiresAt
  · simp only [if_pos hex]
    by_cases hfull : c.capacity ≤ c.evictList.length
    · have hlen := evictList_length_eq c h
      have hro := cacheInv_removeOldest c h
      have hne : c.evictList ≠ [] := by
        intro hnil
        rw [hnil] at hfull
        simp at hfull
        omega
      have hroom : c.removeOldest.items.length < c.removeOldest.capacity := by
        rw [removeOldest_capacity]
        have := hro.2.1 hne
        have hle := h.1
        omega
      have hfresh2 : alookup c.removeOldest.items e.key = none :=
        hro.2.2 e.key (hfresh hex)
      have hpush := cacheInv_pushFresh c.removeOldest e.key e hro.1 hfresh2 rfl hroom
      simp only [if_pos hfull]
      exact hpush
    · have hlen := evictList_length_eq c h
      have hroom : c.items.length < c.capacity := by omega
      have hpush := cacheInv_pushFresh c e.key e h (hfresh hex) rfl hroom
      simp only [if_neg hfull]
      exact hpush
  · simp only [if_neg hex]
    exact h

/-- Eviction keeps absent keys absent. -/
theorem removeOldest_lookup_none (c : LRUCache) (k' : String)
    (h : alookup c.items k' = none) :
    alookup c.removeOldest.items k' = none := by
  unfold LRUCache.removeOldest
  cases hgl : c.evictList.getLast? with
  | none => exact h
  | some L => exact alookup_eraseItem_none L.key h

/-- Loading an entry with a different fresh key keeps an absent key
    absent. -/
theorem loadOne_lookup_none (c : LRUCache) (now : Nat) (e : CacheEntry)
    (k' : String) (hne : k' ≠ e.key)
    (hfresh : now < e.expiresAt → alookup c.items e.key = none)
    (h : alookup c.items k' = none) :
    alookup (c.loadOne now e).items k' = none := by
  unfold LRUCache.loadOne
  by_cases hex : now < e.expiresAt
  · simp only [if_pos hex]
    by_cases hfull : c.capacity ≤ c.evictList.length
    · simp only [if_pos hfull]
      show alookup (insertItem c.removeOldest.items e.key e) k' = none
      rw [insertItem_fresh e (removeOldest_lookup_none c e.key (hfresh hex))]
      rw [alookup_cons_ne _ _ _ _ hne]
      exact removeOldest_lookup_none c k' h
    · simp only [if_neg hfull]
      show alookup (insertItem c.items e.key e) k' = none
      rw [insertItem_fresh e (hfresh hex)]
      rw [alookup_cons_ne _ _ _ _ hne]
      exact h
  · simp only [if_neg hex]
    exact h

/-- One step of the restore fold. -/
theorem LoadFromFile_step (c : LRUCache) (now : Nat) (e : CacheEntry)
    (es : List CacheEntry) :
    c.LoadFromFile now (e :: es) = (c.loadOne now e).LoadFromFile now es := rfl

/-- Restoring entries whose non-expired keys are distinct and absent
    preserves the invariant. -/
theorem cacheInv_LoadFromFile (now : Nat) :
    ∀ (entries : List CacheEntry) (c : LRUCache), CacheInv c → 0 < c.capacity →
    ((entries.filter (fun e => decide (now < e.expiresAt))).map
        (fun e => e.key)).Nodup →
    (∀ e ∈ entries.filter (fun e => decide (now < e.expiresAt)),
        alookup c.items e.key = none) →
    CacheInv (c.LoadFromFile now entries) := by
  intro entries
  induction entries with
  | nil => intro c h _ _ _; exact h
  | cons e es ih =>
    intro c h hcap hnd hfr
    rw [LoadFromFile_step]
    by_cases hex : now < e.expiresAt
    · rw [List.filter_cons, if_pos (by simpa using hex)] at hnd hfr
      simp only [List.map_cons, List.nodup_cons] at hnd
      have hfre : now < e.expiresAt → alookup c.items e.key = none :=
        fun _ => hfr e (List.mem_cons_self e _)
      refine ih (c.loadOne now e) (cacheInv_loadOne c now e h hcap hfre) ?_ hnd.2 ?_
      · rw [loadOne_capacity]
        exact hcap
      · intro e' he'
        have hne : e'.key ≠ e.key := by
          intro heq
          apply hnd.1
          rw [← heq]
          exact List.mem_map.mpr ⟨e', he', rfl⟩
        exact loadOne_lookup_none c now e e'.key hne hfre
          (hfr e' (List.mem_cons_of_mem e he'))
    · rw [List.filter_cons, if_neg (by simpa using hex)] at hnd hfr
      have hstep : c.loadOne now e = c := by
        unfold LRUCache.loadOne
        rw [if_neg hex]
      rw [hstep]
      exact ih c h hcap hnd hfr

/-- `Clear` preserves the invariant. -/
theorem cacheInv_Clear (c : LRUCache) : CacheInv c.Clear := by
  refine ⟨?_, ?_, ?_, ?_⟩ <;> simp [LRUCache.Clear]

/-- Deleting a batch of keys one by one is a single filter. -/
theorem foldl_eraseItem_filter :
    ∀ (E : List CacheEntry) (items : List (String × CacheEntry)),
    E.foldl (fun its e => eraseItem its e.key) items
      = items.filter (fun p => E.all (fun e => !(p.1 == e.key))) := by
  intro E
  induction E with
  | nil => intro items; simp
  | cons e E ih =>
    intro items
    show E.foldl (fun its e => eraseItem its e.key) (eraseItem items e.key) = _
    rw [ih]
    unfold eraseItem
    rw [List.filter_filter]
    apply List.filter_congr
    intro p hp
    simp [Bool.and_comm]

/-- The eviction sweep preserves the invariant: it removes exactly the
    bindings whose entries are expired. -/
theorem cacheInv_removeExpired (c : LRUCache) (now : Nat) (h : CacheInv c) :
    CacheInv (c.removeExpired now) := by
  obtain ⟨hlen, hnd, hkc, hperm⟩ := h
  have hitems : (c.removeExpired now).items
      = c.items.filter (fun p => !(decide (p.2.expiresAt < now))) := by
    show (c.evictList.filter (fun e => decide (e.expiresAt < now))).foldl
        (fun its e => eraseItem its e.key) c.items = _
    rw [foldl_eraseItem_filter]
    apply List.filter_congr
    intro p hp
    by_cases hex : p.2.expiresAt < now
    · have hmem : p.2 ∈ c.evictList.filter (fun e => decide (e.expiresAt < now)) := by
        apply List.mem_filter.mpr
        refine ⟨?_, by simpa using hex⟩
        apply hperm.mem_iff.mpr
        exact List.mem_map.mpr ⟨p, hp, rfl⟩
      have hall : (c.evictList.filter (fun e => decide (e.expiresAt < now))).all
          (fun e => !(p.1 == e.key)) = false := by
        apply List.all_eq_false.mpr
        refine ⟨p.2, hmem, ?_⟩
        simp [hkc p hp]
      rw [hall]
      simp [hex]
    · have hall : (c.evictList.filter (fun e => decide (e.expiresAt < now))).all
          (fun e => !(p.1 == e.key)) = true := by
        apply List.all_eq_true.mpr
        intro e he
        have heL : e ∈ c.evictList := (List.mem_filter.mp he).1
        have hexe : e.expiresAt < now := by simpa using (List.mem_filter.mp he).2
        have hbind : (e.key, e) ∈ c.items := entry_binding ⟨hlen, hnd, hkc, hperm⟩ heL
        simp only [Bool.not_eq_eq_eq_not, Bool.not_true, beq_eq_false_iff_ne, ne_eq]
        intro hpe
        have hpb : (p.1, p.2) ∈ c.items := by simpa using hp
        rw [hpe] at hpb
        have heq := binding_unique hnd hpb hbind
        rw [heq] at hex
        exact hex hexe
      rw [hall]
      simp [hex]
  refine ⟨?_, ?_, ?_, ?_⟩
  · show (c.removeExpired now).items.length ≤ c.capacity
    rw [hitems]
    exact le_trans (List.length_filter_le _ _) hlen
  · show ((c.removeExpired now).items.map Prod.fst).Nodup
    rw [hitems]
    exact ((List.filter_sublist _).map Prod.fst).nodup hnd
  · show ∀ p ∈ (c.removeExpired now).items, p.2.key = p.1
    rw [hitems]
    intro p hp
    exact hkc p (List.mem_of_mem_filter hp)
  · show (c.evictList.filter (fun e => !(decide (e.expiresAt < now)))).Perm
      ((c.removeExpired now).items.map Prod.snd)
    rw [hitems]
    have h1 : (c.evictList.filter (fun e => !(decide (e.expiresAt < now)))).Perm
        ((c.items.map Prod.snd).filter (fun e => !(decide (e.expiresAt < now)))) :=
      hperm.filter _
    have h2 : (c.items.map Prod.snd).filter (fun e => !(decide (e.expiresAt < now)))
        = (c.items.filter (fun p => !(decide (p.2.expiresAt < now)))).map Prod.snd := by
      rw [List.filter_map]
      rfl
    rw [h2] at h1
    exact h1

/-- Whether a restore is benign: the keys of the entries it will actually
    insert are pairwise distinct and absent from the cache. -/
def goodRestore (c : LRUCache) (now : Nat) (entries : List CacheEntry) : Bool :=
  let ks := (entries.filter (fun e => decide (now < e.expiresAt))).map (fun e => e.key)
  decide ks.Nodup && ks.all (fun k => decide (alookup c.items k = none))

/-- Only restores need the side condition. -/
def safeOp (c : LRUCache) : CacheOp → Bool
  | .restore now entries => goodRestore c now entries
  | _ => true

/-- Every restore along the run is benign. -/
def safeOps : LRUCache → List CacheOp → Bool
  | _, [] => true
  | c, op :: ops => safeOp c op && safeOps (applyOp c op) ops

/-- Restore does not change the capacity. -/
theorem LoadFromFile_capacity (now : Nat) :
    ∀ (entries : List CacheEntry) (c : LRUCache),
    (c.LoadFromFile now entries).capacity = c.capacity := by
  intro entries
  induction entries with
  | nil => intro c; rfl
  | cons e es ih =>
    intro c
    rw [LoadFromFile_step, ih, loadOne_capacity]

/-- No operation changes the configured capacity. -/
theorem applyOp_capacity (c : LRUCache) (op : CacheOp) :
    (applyOp c op).capacity = c.capacity := by
  cases op with
  | get now k =>
    show (c.Get now k).2.capacity = c.capacity
    unfold LRUCache.Get
    cases alookup c.items k with
    | none => rfl
    | some e =>
      by_cases hex : e.expiresAt < now
      · simp only [if_pos hex]
        show (c.Delete k).capacity = c.capacity
        unfold LRUCache.Delete
        cases alookup c.items k <;> rfl
      · simp only [if_neg hex]
  | set now k resp ttl =>
    show (c.Set now k resp ttl).capacity = c.capacity
    unfold LRUCache.Set
    cases alookup c.items k with
    | some e => rfl
    | none =>
      by_cases hfull : c.capacity ≤ c.evictList.length
      · simp only [if_pos hfull]
        exact removeOldest_capacity c
      · simp only [if_neg hfull]
  | del k =>
    show (c.Delete k).capacity = c.capacity
    unfold LRUCache.Delete
    cases alookup c.items k <;> rfl
  | clear => rfl
  | sweep now => rfl
  | restore now entries => exact LoadFromFile_capacity now entries c

/-- Every benign operation preserves the invariant. -/
theorem cacheInv_applyOp (c : LRUCache) (op : CacheOp) (h : CacheInv c)
    (hcap : 0 < c.capacity) (hs : safeOp c op = true) :
    CacheInv (applyOp c op) := by
  cases op with
  | get now k => exact cacheInv_Get c now k h
  | set now k resp ttl => exact cacheInv_Set c now k resp ttl h hcap
  | del k => exact cacheInv_Delete c k h
  | clear => exact cacheInv_Clear c
  | sweep now => exact cacheInv_removeExpired c now h
  | restore now entries =>
    unfold safeOp goodRestore at hs
    rw [Bool.and_eq_true] at hs
    refine cacheInv_LoadFromFile now entries c h hcap ?_ ?_
    · exact of_decide_eq_true hs.1
    · intro e he
      have := List.all_eq_true.mp hs.2 e.key
        (List.mem_map.mpr ⟨e, he, rfl⟩)
      exact of_decide_eq_true this

/-- Benign operation sequences preserve the invariant. -/
theorem cacheInv_runOps : ∀ (ops : List CacheOp) (c : LRUCache), CacheInv c →
    0 < c.capacity → safeOps c ops = true → CacheInv (runOps c ops) := by
  intro ops
  induction ops with
  | nil => intro c h _ _; exact h
  | cons op ops ih =>
    intro c h hcap hs
    unfold safeOps at hs
    rw [Bool.and_eq_true] at hs
    show CacheInv (runOps (applyOp c op) ops)
    refine ih (applyOp c op) (cacheInv_applyOp c op h hcap hs.1) ?_ hs.2
    rw [applyOp_capacity]
    exact hcap

/-- A minimal response used in cache scenarios. -/
def msgBlank : Msg := ⟨0, false, false, false, false, 0, [], []⟩

/-- The C8 counterexample run: set key a, restore a snapshot that also
    holds key a (duplicating its list element), then insert key b at
    capacity so eviction removes a's binding while a stale list element for
    a survives. -/
def opsC8 : List CacheOp :=
  [.set 0 "a" msgBlank 100, .restore 0 [⟨"a", msgBlank, 150⟩], .set 0 "b" msgBlank 100]

/-- C8 counterexample: after the run above, starting from an empty cache of
    capacity 2, the recency list holds an entry with key a although the map
    has no such key, and the map and list sizes differ — `LoadFromFile` does
    not check for an existing key before pushing a new list element. -/
theorem lru_invariant_counterexample :
    0 < (emptyCache 2 300).capacity ∧
    (∃ e ∈ (runOps (emptyCache 2 300) opsC8).evictList, e.key = "a") ∧
    (∀ p ∈ (runOps (emptyCache 2 300) opsC8).items, p.1 ≠ "a") ∧
    (runOps (emptyCache 2 300) opsC8).items.length
      ≠ (runOps (emptyCache 2 300) opsC8).evictList.length := by decide

/-- Run sequences do not change the capacity. -/
theorem runOps_capacity : ∀ (ops : List CacheOp) (c : LRUCache),
    (runOps c ops).capacity = c.capacity := by
  intro ops
  induction ops with
  | nil => intro c; rfl
  | cons op ops ih =>
    intro c
    show (runOps (applyOp c op) ops).capacity = c.capacity
    rw [ih, applyOp_capacity]

/-- The empty cache satisfies the invariant. -/
theorem cacheInv_empty (cap dttl : Nat) : CacheInv (emptyCache cap dttl) :=
  ⟨by simp [emptyCache], by simp [emptyCache], by simp [emptyCache],
   by simp [emptyCache]⟩

/-- C8 (amended): after every sequence of cache operations starting from an
    empty cache with positive capacity, 0 ≤ size() ≤ capacity and the key
    set of the map equals the key set of the recency list — provided each
    restore in the sequence loads only entries whose (non-expired) keys are
    pairwise distinct and absent from the cache at that point, as is the
    case for the startup restore of a dump into a fresh cache.  Without this
    proviso `lru_invariant_counterexample` breaks the invariant. -/
theorem lru_invariant_amended (cap dttl : Nat) (ops : List CacheOp)
    (hcap : 0 < cap) (hsafe : safeOps (emptyCache cap dttl) ops = true) :
    (runOps (emptyCache cap dttl) ops).Size ≤ cap ∧
    (∀ k, (∃ p ∈ (runOps (emptyCache cap dttl) ops).items, p.1 = k)
        ↔ (∃ e ∈ (runOps (emptyCache cap dttl) ops).evictList, e.key = k)) := by
  have hinv : CacheInv (runOps (emptyCache cap dttl) ops) :=
    cacheInv_runOps ops (emptyCache cap dttl) (cacheInv_empty cap dttl) hcap hsafe
  have hcapf : (runOps (emptyCache cap dttl) ops).capacity = cap :=
    runOps_capacity ops (emptyCache cap dttl)
  constructor
  · show (runOps (emptyCache cap dttl) ops).items.length ≤ cap
    have h1 := hinv.1
    omega
  · intro k
    constructor
    · rintro ⟨p, hp, rfl⟩
      exact ⟨p.2, hinv.2.2.2.mem_iff.mpr (List.mem_map.mpr ⟨p, hp, rfl⟩),
        hinv.2.2.1 p hp⟩
    · rintro ⟨e, he, rfl⟩
      exact ⟨(e.key, e), entry_binding hinv he, rfl⟩

/-- A benign run touching set, restore, get, eviction and sweep. -/
def opsC8w : List CacheOp :=
  [.set 0 "a" msgBlank 100, .restore 0 [⟨"c", msgBlank, 150⟩],
   .get 50 "a", .set 60 "b" msgBlank 100, .sweep 200]

/-- Witness for `lru_invariant_amended` at a concrete benign run. -/
theorem lru_invariant_amended_witness :
    (runOps (emptyCache 2 300) opsC8w).Size ≤ 2 ∧
    (∀ k, (∃ p ∈ (runOps (emptyCache 2 300) opsC8w).items, p.1 = k)
        ↔ (∃ e ∈ (runOps (emptyCache 2 300) opsC8w).evictList, e.key = k)) :=
  lru_invariant_amended 2 300 opsC8w (by decide) (by decide)

/-! Claims C6, C7, C9: lookup computation lemmas and the operation
    contracts. -/

/-- Lookup finds a binding at the head. -/
theorem alookup_cons_self (items : List (String × CacheEntry)) (k : String)
    (e : CacheEntry) : alookup ((k, e) :: items) k = some e := by
  unfold alookup
  rw [List.find?_cons_of_pos _ (by simp)]

/-- After an in-place replacement the key maps to the new entry. -/
theorem alookup_replace_self (k : String) (e' : CacheEntry) :
    ∀ (items : List (String × CacheEntry)), items.any (fun p => p.1 == k) = true →
    alookup (items.map (fun p => if p.1 == k then (k, e') else p)) k = some e' := by
  intro items
  induction items with
  | nil => intro h; simp at h
  | cons p rest ih =>
    intro h
    by_cases hpk : p.1 = k
    · rw [List.map_cons, if_pos (by simp [hpk])]
      exact alookup_cons_self _ k e'
    · rw [List.map_cons, if_neg (by simp [hpk])]
      have hrest : rest.any (fun p => p.1 == k) = true := by
        rcases List.any_eq_true.mp h with ⟨q, hq, hqk⟩
        rcases List.mem_cons.mp hq with hh | ht
        · have hq1 : q.1 = k := by simpa using hqk
          rw [hh] at hq1
          exact absurd hq1 hpk
        · exact List.any_eq_true.mpr ⟨q, ht, hqk⟩
      unfold alookup
      rw [List.find?_cons_of_neg _ (by simp [hpk])]
      have := ih hrest
      unfold alookup at this
      exact this

/-- After map assignment the key maps to the assigned entry. -/
theorem alookup_insertItem_self (items : List (String × CacheEntry))
    (k : String) (e' : CacheEntry) :
    alookup (insertItem items k e') k = some e' := by
  unfold insertItem
  by_cases hany : items.any (fun p => p.1 == k) = true
  · rw [if_pos hany]
    exact alookup_replace_self k e' items hany
  · rw [if_neg hany]
    exact alookup_cons_self items k e'

/-- In-place replacement leaves other keys' lookups unchanged. -/
theorem alookup_replace_ne (k k' : String) (hne : k' ≠ k) (e' : CacheEntry) :
    ∀ (items : List (String × CacheEntry)),
    alookup (items.map (fun p => if p.1 == k then (k, e') else p)) k'
      = alookup items k' := by
  intro items
  induction items with
  | nil => rfl
  | cons p rest ih =>
    by_cases hpk : p.1 = k
    · rw [List.map_cons, if_pos (by simp [hpk])]
      unfold alookup
      rw [List.find?_cons_of_neg _ (by simp; exact fun h => hne h.symm)]
      rw [List.find?_cons_of_neg _ (by simp [hpk]; exact fun h => hne h.symm)]
      have := ih
      unfold alookup at this
      exact this
    · rw [List.map_cons, if_neg (by simp [hpk])]
      by_cases hpk' : p.1 = k'
      · unfold alookup
        rw [List.find?_cons_of_pos _ (by simp [hpk']),
            List.find?_cons_of_pos _ (by simp [hpk'])]
      · unfold alookup
        rw [List.find?_cons_of_neg _ (by simp [hpk']),
            List.find?_cons_of_neg _ (by simp [hpk'])]
        have := ih
        unfold alookup at this
        exact this

/-- Map assignment leaves other keys' lookups unchanged. -/
theorem alookup_insertItem_ne (items : List (String × CacheEntry))
    (k k' : String) (hne : k' ≠ k) (e' : CacheEntry) :
    alookup (insertItem items k e') k' = alookup items k' := by
  unfold insertItem
  by_cases hany : items.any (fun p => p.1 == k) = true
  · rw [if_pos hany]
    exact alookup_replace_ne k k' hne e' items
  · rw [if_neg hany]
    exact alookup_cons_ne items k e' k' hne

/-- After deletion the key is absent. -/
theorem alookup_eraseItem_self (items : List (String × CacheEntry)) (k : String) :
    alookup (eraseItem items k) k = none := by
  have hf : (eraseItem items k).find? (fun p => p.1 == k) = none := by
    rw [List.find?_eq_none]
    intro p hp
    have := List.mem_filter.mp hp
    simpa using this.2
  unfold alookup
  rw [hf]

/-- Deletion leaves other keys' lookups unchanged. -/
theorem alookup_eraseItem_ne (items : List (String × CacheEntry))
    (k k' : String) (hne : k' ≠ k) :
    alookup (eraseItem items k) k' = alookup items k' := by
  induction items with
  | nil => rfl
  | cons p rest ih =>
    unfold eraseItem
    rw [List.filter_cons]
    by_cases hpk : p.1 = k
    · rw [if_neg (by simp [hpk])]
      unfold alookup
      rw [List.find?_cons_of_neg _ (by simp [hpk]; exact fun h => hne h.symm)]
      have := ih
      unfold eraseItem alookup at this
      exact this
    · rw [if_pos (by simp [hpk])]
      by_cases hpk' : p.1 = k'
      · unfold alookup
        rw [List.find?_cons_of_pos _ (by simp [hpk']),
            List.find?_cons_of_pos _ (by simp [hpk'])]
      · unfold alookup
        rw [List.find?_cons_of_neg _ (by simp [hpk']),
            List.find?_cons_of_neg _ (by simp [hpk'])]
        have := ih
        unfold eraseItem alookup at this
        exact this

/-- C6: `Set` stores a copy of the response under the key with expiry
    `now + ttl` (the default TTL substituted when ttl = 0) and makes it most
    recently used; replacing an existing key changes no other binding and
    evicts nothing; a new key below capacity only grows the map; and a new
    key at capacity evicts exactly the least-recently-used entry (the back
    of the recency list) and no other. -/
theorem cache_set_spec (c : LRUCache) (now : Nat) (k : String) (resp : Msg)
    (ttl : Nat) (h : CacheInv c) (hcap : 0 < c.capacity) :
    alookup (c.Set now k resp ttl).items k
      = some ⟨k, resp, now + (if ttl = 0 then c.defaultTTL else ttl)⟩ ∧
    (c.Set now k resp ttl).evictList.head?
      = some ⟨k, resp, now + (if ttl = 0 then c.defaultTTL else ttl)⟩ ∧
    (∀ e, alookup c.items k = some e →
      (c.Set now k resp ttl).items.length = c.items.length ∧
      ∀ k', k' ≠ k → alookup (c.Set now k resp ttl).items k' = alookup c.items k') ∧
    (alookup c.items k = none → c.items.length < c.capacity →
      (c.Set now k resp ttl).items.length = c.items.length + 1 ∧
      ∀ k', k' ≠ k → alookup (c.Set now k resp ttl).items k' = alookup c.items k') ∧
    (alookup c.items k = none → c.items.length = c.capacity →
      ∃ lru, c.evictList.getLast? = some lru ∧ lru.key ≠ k ∧
        (c.Set now k resp ttl).items.length = c.capacity ∧
        alookup (c.Set now k resp ttl).items lru.key = none ∧
        ∀ k', k' ≠ k → k' ≠ lru.key →
          alookup (c.Set now k resp ttl).items k' = alookup c.items k') := by
  obtain ⟨hlen, hnd, hkc, hperm⟩ := h
  have hlistlen : c.evictList.length = c.items.length :=
    evictList_length_eq c ⟨hlen, hnd, hkc, hperm⟩
  cases hl : alookup c.items k with
  | some e =>
    have hek : e.key = k := hkc (k, e) (alookup_some_mem hl)
    have hset : c.Set now k resp ttl
        = { c with
            items := insertItem c.items k
              (⟨e.key, resp, now + (if ttl = 0 then c.defaultTTL else ttl)⟩ : CacheEntry),
            evictList :=
              (⟨e.key, resp, now + (if ttl = 0 then c.defaultTTL else ttl)⟩ : CacheEntry)
                :: c.evictList.erase e } := by
      unfold LRUCache.Set
      rw [hl]
    have hent : (⟨e.key, resp, now + (if ttl = 0 then c.defaultTTL else ttl)⟩ : CacheEntry)
        = ⟨k, resp, now + (if ttl = 0 then c.defaultTTL else ttl)⟩ := by
      rw [hek]
    refine ⟨?_, ?_, ?_, ?_, ?_⟩
    · rw [hset]
      show alookup (insertItem c.items k _) k = _
      rw [alookup_insertItem_self, hent]
    · rw [hset]
      show some _ = some _
      rw [hent]
    · intro e0 _
      refine ⟨?_, ?_⟩
      · rw [hset]
        show (insertItem c.items k _).length = c.items.length
        rw [insertItem_mem _ (alookup_some_mem hl), List.length_map]
      · intro k' hk'
        rw [hset]
        show alookup (insertItem c.items k _) k' = _
        rw [alookup_insertItem_ne _ _ _ hk']
    · intro hnone
      exact absurd hnone (by simp)
    · intro hnone
      exact absurd hnone (by simp)
  | none =>
    by_cases hfull : c.capacity ≤ c.evictList.length
    · have hsz : c.items.length = c.capacity := by omega
      have hne : c.evictList ≠ [] := by
        intro hnil
        rw [hnil] at hlistlen
        simp at hlistlen
        omega
      obtain ⟨lru, hgl⟩ : ∃ lru, c.evictList.getLast? = some lru := by
        cases hgl : c.evictList.getLast? with
        | none => exact absurd (List.getLast?_eq_none_iff.mp hgl) hne
        | some lru => exact ⟨lru, rfl⟩
      have hlmem : lru ∈ c.evictList := by
        rw [← List.dropLast_append_getLast? lru hgl]
        simp
      have hbind : (lru.key, lru) ∈ c.items :=
        entry_binding ⟨hlen, hnd, hkc, hperm⟩ hlmem
      have hlk : lru.key ≠ k := by
        intro heq
        apply alookup_isSome_of_mem hbind
        rw [heq]
        exact hl
      have hro : c.removeOldest
          = { c with items := eraseItem c.items lru.key,
                     evictList := c.evictList.dropLast } := by
        unfold LRUCache.removeOldest
        rw [hgl]
      have herlen : (eraseItem c.items lru.key).length + 1 = c.items.length := by
        have := (perm_cons_eraseItem hnd hbind).length_eq
        simpa using this.symm
      have herfresh : alookup (eraseItem c.items lru.key) k = none := by
        rw [alookup_eraseItem_ne _ _ _ (Ne.symm hlk)]
        exact hl
      have hset : c.Set now k resp ttl
          = { c with
              items := insertItem (eraseItem c.items lru.key) k
                ⟨k, resp, now + (if ttl = 0 then c.defaultTTL else ttl)⟩,
              evictList := ⟨k, resp, now + (if ttl = 0 then c.defaultTTL else ttl)⟩
                :: c.evictList.dropLast } := by
        unfold LRUCache.Set
        rw [hl]
        simp only [if_pos hfull, hro]
      refine ⟨?_, ?_, ?_, ?_, ?_⟩
      · rw [hset]
        show alookup (insertItem _ k _) k = _
        rw [alookup_insertItem_self]
      · rw [hset]
        rfl
      · intro e0 he0
        exact absurd he0 (by simp)
      · intro _ hroom
        omega
      · intro _ _
        refine ⟨lru, hgl, hlk, ?_, ?_, ?_⟩
        · rw [hset]
          show (insertItem (eraseItem c.items lru.key) k _).length = c.capacity
          rw [insertItem_fresh _ herfresh]
          simp only [List.length_cons]
          omega
        · rw [hset]
          show alookup (insertItem (eraseItem c.items lru.key) k _) lru.key = none
          rw [alookup_insertItem_ne _ _ _ hlk]
          exact alookup_eraseItem_self _ _
        · intro k' hk' hklru
          rw [hset]
          show alookup (insertItem (eraseItem c.items lru.key) k _) k' = _
          rw [alookup_insertItem_ne _ _ _ hk']
          exact alookup_eraseItem_ne _ _ _ hklru
    · have hroom : c.items.length < c.capacity := by omega
      have hset : c.Set now k resp ttl
          = { c with
              items := insertItem c.items k
                ⟨k, resp, now + (if ttl = 0 then c.defaultTTL else ttl)⟩,
              evictList := ⟨k, resp, now + (if ttl = 0 then c.defaultTTL else ttl)⟩
                :: c.evictList } := by
        unfold LRUCache.Set
        rw [hl]
        simp only [if_neg hfull]
      refine ⟨?_, ?_, ?_, ?_, ?_⟩
      · rw [hset]
        show alookup (insertItem c.items k _) k = _
        rw [alookup_insertItem_self]
      · rw [hset]
        rfl
      · intro e0 he0
        exact absurd he0 (by simp)
      · intro _ _
        refine ⟨?_, ?_⟩
        · rw [hset]
          show (insertItem c.items k _).length = c.items.length + 1
          rw [insertItem_fresh _ hl]
          simp
        · intro k' hk'
          rw [hset]
          show alookup (insertItem c.items k _) k' = _
          rw [alookup_insertItem_ne _ _ _ hk']
      · intro _ hsz
        omega

/-- C7: `Get` of a live entry returns (a copy of) the stored response,
    leaves the map untouched and moves the entry to most-recently-used; an
    expired entry is removed as a side effect (that key alone) and reported
    as a miss; an absent key is a miss with no state change.  In the pure
    embedding the returned copy is the stored value itself, so detachment
    from cached state is by immutability. -/
theorem cache_get_spec (c : LRUCache) (now : Nat) (k : String) (h : CacheInv c) :
    (∀ e, alookup c.items k = some e → ¬ e.expiresAt < now →
      (c.Get now k).1 = some e.response ∧
      (c.Get now k).2.items = c.items ∧
      (c.Get now k).2.evictList.head? = some e ∧
      (c.Get now k).2.evictList.Perm c.evictList) ∧
    (∀ e, alookup c.items k = some e → e.expiresAt < now →
      (c.Get now k).1 = none ∧
      alookup (c.Get now k).2.items k = none ∧
      ∀ k', k' ≠ k → alookup (c.Get now k).2.items k' = alookup c.items k') ∧
    (alookup c.items k = none → c.Get now k = (none, c)) := by
  cases hl : alookup c.items k with
  | none =>
    have hGet : c.Get now k = (none, c) := by
      unfold LRUCache.Get
      rw [hl]
    refine ⟨?_, ?_, fun _ => hGet⟩
    · intro e he
      exact absurd he (by simp)
    · intro e he
      exact absurd he (by simp)
  | some e0 =>
    refine ⟨?_, ?_, ?_⟩
    · intro e he hexp
      have he0 : e0 = e := by simpa using he
      subst he0
      have hGet : c.Get now k
          = (some e0.response, { c with evictList := e0 :: c.evictList.erase e0 }) := by
        unfold LRUCache.Get
        rw [hl]
        show (if e0.expiresAt < now then ((none : Option Msg), c.Delete k)
          else (some e0.response,
            { c with evictList := e0 :: c.evictList.erase e0 })) = _
        rw [if_neg hexp]
      rw [hGet]
      refine ⟨rfl, rfl, rfl, ?_⟩
      have hmem : e0 ∈ c.evictList := by
        apply h.2.2.2.mem_iff.mpr
        exact List.mem_map.mpr ⟨(k, e0), alookup_some_mem hl, rfl⟩
      exact (List.perm_cons_erase hmem).symm
    · intro e he hexp
      have he0 : e0 = e := by simpa using he
      subst he0
      have hGet : c.Get now k = (none, c.Delete k) := by
        unfold LRUCache.Get
        rw [hl]
        show (if e0.expiresAt < now then ((none : Option Msg), c.Delete k)
          else (some e0.response,
            { c with evictList := e0 :: c.evictList.erase e0 })) = _
        rw [if_pos hexp]
      have hDel : c.Delete k
          = { c with items := eraseItem c.items k,
                     evictList := c.evictList.erase e0 } := by
        unfold LRUCache.Delete
        rw [hl]
      rw [hGet, hDel]
      refine ⟨rfl, ?_, ?_⟩
      · exact alookup_eraseItem_self _ _
      · intro k' hk'
        exact alookup_eraseItem_ne _ _ _ hk'
    · intro hnone
      exact absurd hnone (by simp)

/-- A full cache of capacity 2 whose LRU entry has key a. -/
def cC6 : LRUCache :=
  ⟨2, 300,
   [("b", ⟨"b", msgBlank, 200⟩), ("a", ⟨"a", msgBlank, 100⟩)],
   [⟨"b", msgBlank, 200⟩, ⟨"a", msgBlank, 100⟩]⟩

/-- Witness for `cache_set_spec`: inserting a fresh key into the full
    `cC6` evicts exactly the LRU entry. -/
theorem cache_set_spec_witness :
    ∃ lru, cC6.evictList.getLast? = some lru ∧ lru.key ≠ "z" ∧
      (cC6.Set 50 "z" msgBlank 0).items.length = cC6.capacity ∧
      alookup (cC6.Set 50 "z" msgBlank 0).items lru.key = none ∧
      ∀ k', k' ≠ "z" → k' ≠ lru.key →
        alookup (cC6.Set 50 "z" msgBlank 0).items k' = alookup cC6.items k' :=
  (cache_set_spec cC6 50 "z" msgBlank 0
      (by unfold CacheInv
          exact ⟨by decide, by decide, by decide, List.Perm.refl _⟩)
      (by decide)).2.2.2.2
    (by decide) (by decide)

/-- Witness for `cache_get_spec`: a live hit on `cC6`. -/
theorem cache_get_spec_witness :
    (cC6.Get 150 "b").1 = some (⟨"b", msgBlank, 200⟩ : CacheEntry).response ∧
    (cC6.Get 150 "b").2.items = cC6.items ∧
    (cC6.Get 150 "b").2.evictList.head? = some ⟨"b", msgBlank, 200⟩ ∧
    (cC6.Get 150 "b").2.evictList.Perm cC6.evictList :=
  (cache_get_spec cC6 150 "b"
      (by unfold CacheInv
          exact ⟨by decide, by decide, by decide, List.Perm.refl _⟩)).1
    ⟨"b", msgBlank, 200⟩ (by decide) (by decide)

/-- Under the invariant, every stored entry has its binding at its own
    key. -/
theorem snd_mem_binding {c : LRUCache} (h : CacheInv c) {e : CacheEntry}
    (hm : e ∈ c.items.map Prod.snd) : (e.key, e) ∈ c.items := by
  rcases List.mem_map.mp hm with ⟨p, hp, hpe⟩
  have hpk := h.2.2.1 p hp
  have hep : (e.key, e) = p := by
    rw [← hpe, hpk]
  rw [hep]
  exact hp

/-- Restoring entries with fresh distinct keys into a cache with room for
    all of them resolves each key to the first matching non-expired loaded
    entry, falling back to the original contents. -/
theorem load_lookup (now : Nat) :
    ∀ (entries : List CacheEntry) (c0 : LRUCache),
    ((entries.filter (fun e => decide (now < e.expiresAt))).map
        (fun e => e.key)).Nodup →
    (∀ e ∈ entries.filter (fun e => decide (now < e.expiresAt)),
      alookup c0.items e.key = none) →
    c0.evictList.length + entries.length ≤ c0.capacity →
    ∀ k, alookup (c0.LoadFromFile now entries).items k
      = match (entries.filter (fun e => decide (now < e.expiresAt))).find?
          (fun e => e.key == k) with
        | some e => some e
        | none => alookup c0.items k := by
  intro entries
  induction entries with
  | nil => intro c0 _ _ _ k; rfl
  | cons e es ih =>
    intro c0 hnd hfr hroom k
    rw [LoadFromFile_step]
    by_cases hex : now < e.expiresAt
    · rw [List.filter_cons, if_pos (by simpa using hex)] at hnd hfr ⊢
      simp only [List.map_cons, List.nodup_cons] at hnd
      have hfull : ¬ c0.capacity ≤ c0.evictList.length := by
        simp only [List.length_cons] at hroom
        omega
      have hc1 : c0.loadOne now e
          = { c0 with items := (e.key, e) :: c0.items,
                      evictList := e :: c0.evictList } := by
        unfold LRUCache.loadOne
        rw [if_pos hex]
        simp only [if_neg hfull]
        rw [insertItem_fresh e (hfr e (List.mem_cons_self e _))]
      have hih := ih (c0.loadOne now e) hnd.2 ?_ ?_ k
      · rw [hih]
        by_cases hek : e.key = k
        · have hnone : (es.filter (fun e => decide (now < e.expiresAt))).find?
              (fun e' => e'.key == k) = none := by
            rw [List.find?_eq_none]
            intro e' he'
            have : e'.key ≠ e.key := by
              intro heq
              apply hnd.1
              rw [← heq]
              exact List.mem_map.mpr ⟨e', he', rfl⟩
            simp [hek ▸ this]
          rw [hnone, List.find?_cons_of_pos _ (by simp [hek])]
          rw [hc1]
          show alookup ((e.key, e) :: c0.items) k = some e
          rw [← hek, alookup_cons_self]
        · rw [List.find?_cons_of_neg _ (by simp [hek])]
          cases hf : (es.filter (fun e => decide (now < e.expiresAt))).find?
              (fun e' => e'.key == k) with
          | some e' => rfl
          | none =>
            rw [hc1]
            show alookup ((e.key, e) :: c0.items) k = alookup c0.items k
            exact alookup_cons_ne _ _ _ _ (fun h => hek h.symm)
      · intro e' he'
        have hne : e'.key ≠ e.key := by
          intro heq
          apply hnd.1
          rw [← heq]
          exact List.mem_map.mpr ⟨e', he', rfl⟩
        rw [hc1]
        show alookup ((e.key, e) :: c0.items) e'.key = none
        rw [alookup_cons_ne _ _ _ _ hne]
        exact hfr e' (List.mem_cons_of_mem e he')
      · rw [hc1]
        simp only [List.length_cons] at hroom ⊢
        show (e :: c0.evictList).length + es.length ≤ c0.capacity
        simp only [List.length_cons]
        omega
    · rw [List.filter_cons, if_neg (by simpa using hex)] at hnd hfr ⊢
      have hstep : c0.loadOne now e = c0 := by
        unfold LRUCache.loadOne
        rw [if_neg hex]
      rw [hstep]
      exact ih c0 hnd hfr (by simp only [List.length_cons] at hroom; omega) k

/-- A snapshot of a coherent cache has pairwise-distinct keys. -/
theorem dumpEntries_keys_nodup (c : LRUCache) (t1 : Nat) (h : CacheInv c) :
    ((c.dumpEntries t1).map (fun e => e.key)).Nodup := by
  have hkeys : (c.items.map Prod.snd).map (fun e => e.key) = c.items.map Prod.fst := by
    rw [List.map_map]
    apply List.map_congr_left
    intro p hp
    exact h.2.2.1 p hp
  have hnd2 : ((c.items.map Prod.snd).map (fun e => e.key)).Nodup := by
    rw [hkeys]
    exact h.2.1
  exact ((List.filter_sublist _).map _).nodup hnd2

/-- C9: writing a snapshot at `t1` and restoring it at `t2` into a fresh
    empty cache of sufficient capacity yields a cache whose lookup at every
    key returns exactly the original entry — same key, response and expiry
    instant — when that entry was non-expired at both instants, and nothing
    otherwise. -/
theorem snapshot_roundtrip (c : LRUCache) (t1 t2 : Nat) (cap2 dttl2 : Nat)
    (h : CacheInv c) (hcap : (c.dumpEntries t1).length ≤ cap2) :
    ∀ k, alookup ((emptyCache cap2 dttl2).LoadFromFile t2 (c.dumpEntries t1)).items k
      = match alookup c.items k with
        | some e => if t1 < e.expiresAt ∧ t2 < e.expiresAt then some e else none
        | none => none := by
  intro k
  have hnd : (((c.dumpEntries t1).filter
      (fun e => decide (t2 < e.expiresAt))).map (fun e => e.key)).Nodup :=
    ((List.filter_sublist _).map _).nodup (dumpEntries_keys_nodup c t1 h)
  have hload := load_lookup t2 (c.dumpEntries t1) (emptyCache cap2 dttl2) hnd
    (fun e _ => rfl) (by simpa [emptyCache] using hcap) k
  rw [hload]
  have hfilter_mem : ∀ e', e' ∈ (c.dumpEntries t1).filter
      (fun e => decide (t2 < e.expiresAt)) →
      (e'.key, e') ∈ c.items ∧ t1 < e'.expiresAt ∧ t2 < e'.expiresAt := by
    intro e' he'
    have h1 := List.mem_filter.mp he'
    have h2 := List.mem_filter.mp h1.1
    refine ⟨snd_mem_binding h h2.1, by simpa using h2.2, by simpa using h1.2⟩
  cases hA : alookup c.items k with
  | some e =>
    have hbind : (k, e) ∈ c.items := alookup_some_mem hA
    have hek : e.key = k := h.2.2.1 (k, e) hbind
    by_cases hlive : t1 < e.expiresAt ∧ t2 < e.expiresAt
    · have hmem : e ∈ (c.dumpEntries t1).filter (fun e => decide (t2 < e.expiresAt)) := by
        apply List.mem_filter.mpr
        refine ⟨?_, by simpa using hlive.2⟩
        apply List.mem_filter.mpr
        refine ⟨?_, by simpa using hlive.1⟩
        exact List.mem_map.mpr ⟨(k, e), hbind, rfl⟩
      have hsome : ((c.dumpEntries t1).filter
          (fun e => decide (t2 < e.expiresAt))).find? (fun e' => e'.key == k) ≠ none := by
        intro hnone
        exact absurd (by simpa using List.find?_eq_none.mp hnone e hmem) (by simp [hek])
      cases hf : ((c.dumpEntries t1).filter
          (fun e => decide (t2 < e.expiresAt))).find? (fun e' => e'.key == k) with
      | none => exact absurd hf hsome
      | some e' =>
        have hpred : e'.key = k := by simpa using List.find?_some hf
        have hmem' := List.mem_of_find?_eq_some hf
        have hbind' : (k, e') ∈ c.items := by
          rw [← hpred]
          exact (hfilter_mem e' hmem').1
        have he'e : e' = e := binding_unique h.2.1 hbind' hbind
        rw [he'e]
        show some e = if t1 < e.expiresAt ∧ t2 < e.expiresAt then some e else none
        rw [if_pos hlive]
    · have hnone : ((c.dumpEntries t1).filter
          (fun e => decide (t2 < e.expiresAt))).find? (fun e' => e'.key == k) = none := by
        rw [List.find?_eq_none]
        intro e' he'
        obtain ⟨hbind', h1, h2⟩ := hfilter_mem e' he'
        intro hpred
        have hpk : e'.key = k := by simpa using hpred
        rw [hpk] at hbind'
        have : e' = e := binding_unique h.2.1 hbind' hbind
        rw [this] at h1 h2
        exact hlive ⟨h1, h2⟩
      rw [hnone]
      show (none : Option CacheEntry)
        = if t1 < e.expiresAt ∧ t2 < e.expiresAt then some e else none
      rw [if_neg hlive]
  | none =>
    have hnone : ((c.dumpEntries t1).filter
        (fun e => decide (t2 < e.expiresAt))).find? (fun e' => e'.key == k) = none := by
      rw [List.find?_eq_none]
      intro e' he'
      obtain ⟨hbind', _, _⟩ := hfilter_mem e' he'
      intro hpred
      have hpk : e'.key = k := by simpa using hpred
      rw [hpk] at hbind'
      exact alookup_isSome_of_mem hbind' hA
    rw [hnone]
    rfl

/-- A cache holding one entry already expired at snapshot time. -/
def cC9 : LRUCache :=
  ⟨4, 300,
   [("x", ⟨"x", msgBlank, 100⟩), ("y", ⟨"y", msgBlank, 500⟩)],
   [⟨"x", msgBlank, 100⟩, ⟨"y", msgBlank, 500⟩]⟩

/-- Witness for `snapshot_roundtrip`: the live entry survives the
    round-trip unchanged, the expired one is discarded. -/
theorem snapshot_roundtrip_witness :
    alookup ((emptyCache 4 300).LoadFromFile 300 (cC9.dumpEntries 200)).items "y"
      = some ⟨"y", msgBlank, 500⟩ ∧
    alookup ((emptyCache 4 300).LoadFromFile 300 (cC9.dumpEntries 200)).items "x"
      = none := by
  have h1 := snapshot_roundtrip cC9 200 300 4 300
    (by unfold CacheInv
        exact ⟨by decide, by decide, by decide, List.Perm.refl _⟩)
    (by decide)
  refine ⟨?_, ?_⟩
  · rw [h1 "y"]
    decide
  · rw [h1 "x"]
    decide

/-! Claim C4: configuration loading (`config.TOMLConfigLoader`).  A decoded
    file is modelled as the post-decode `Config` value (TOML omissions leave
    Go zero values); a missing file is `none`.  `ipOK s` models
    `net.ParseIP(s) != nil`.  Durations are seconds; `port`, `max_entries`
    and `retries` are integers as in Go. -/

/-- Go `config.ServerConfig` (zero values = omitted options). -/
structure ServerConfig where
  port : Int := 0
  bindAddress : String := ""
  readTimeout : Nat := 0
  writeTimeout : Nat := 0
deriving DecidableEq, Repr

/-- Go `config.CacheConfig`. -/
structure CacheConfig where
  maxEntries : Int := 0
  defaultTTL : Nat := 0
  cleanupInterval : Nat := 0
deriving DecidableEq, Repr

/-- Go `config.UpstreamConfig`. -/
structure UpstreamConfig where
  servers : List String := []
  timeout : Nat := 0
  retries : Int := 0
deriving DecidableEq, Repr

/-- Go `config.LoggingConfig`. -/
structure LoggingConfig where
  level : String := ""
  format : String := ""
deriving DecidableEq, Repr

/-- Go `config.Config`. -/
structure Config where
  server : ServerConfig := {}
  cache : CacheConfig := {}
  upstream : UpstreamConfig := {}
  logging : LoggingConfig := {}
  records : RecordsConfig := {}
deriving DecidableEq, Repr

/-- The validation errors `validate` can produce. -/
inductive ConfigErr where
  | invalidPort (p : Int)
  | invalidMaxEntries (n : Int)
  | noUpstreamServers
  | negativeRetries (r : Int)
  | invalidRecordDomain (typ : String) (domain : String)
  | invalidRecordValue (typ : String) (domain : String) (value : String)
  | invalidMXPriority (domain : String) (priority : Int)
deriving DecidableEq, Repr

/-- `TOMLConfigLoader.isValidDomain`: non-empty, at most 253 characters,
    every label 1..63 characters after normalizing one trailing dot. -/
def isValidDomain (domain : String) : Bool :=
  if domain.length = 0 ∨ 253 < domain.length then false
  else
    let d := if endsWithDot domain then domain else domain ++ "."
    (splitOnDot (trimDot d)).all
      (fun part => decide (1 ≤ part.length ∧ part.length ≤ 63))

/-- `TOMLConfigLoader.validateRecords`: domain and value checks for the A,
    AAAA, CNAME and MX tables. -/
def validateRecords (records : RecordsConfig) (ipOK : String → Bool) :
    Option ConfigErr :=
  match records.A.findSome? (fun p =>
      if ¬ isValidDomain p.1 then some (.invalidRecordDomain "A" p.1)
      else if ¬ ipOK p.2 then some (.invalidRecordValue "A" p.1 p.2)
      else none) with
  | some e => some e
  | none =>
  match records.AAAA.findSome? (fun p =>
      if ¬ isValidDomain p.1 then some (.invalidRecordDomain "AAAA" p.1)
      else if ¬ ipOK p.2 then some (.invalidRecordValue "AAAA" p.1 p.2)
      else none) with
  | some e => some e
  | none =>
  match records.CNAME.findSome? (fun p =>
      if ¬ isValidDomain p.1 then some (.invalidRecordDomain "CNAME" p.1)
      else if ¬ isValidDomain p.2 then some (.invalidRecordValue "CNAME" p.1 p.2)
      else none) with
  | some e => some e
  | none =>
  records.MX.findSome? (fun p =>
      if ¬ isValidDomain p.1 then some (.invalidRecordDomain "MX" p.1)
      else if ¬ isValidDomain p.2.target then
        some (.invalidRecordValue "MX" p.1 p.2.target)
      else if p.2.priority < 0 ∨ 65535 < p.2.priority then
        some (.invalidMXPriority p.1 p.2.priority)
      else none)

/-- `TOMLConfigLoader.validate`: range checks, then record validation. -/
def validate (cfg : Config) (ipOK : String → Bool) : Option ConfigErr :=
  if cfg.server.port < 1 ∨ 65535 < cfg.server.port then
    some (.invalidPort cfg.server.port)
  else if cfg.cache.maxEntries < 1 then
    some (.invalidMaxEntries cfg.cache.maxEntries)
  else if cfg.upstream.servers.length = 0 then
    some .noUpstreamServers
  else if cfg.upstream.retries < 0 then
    some (.negativeRetries cfg.upstream.retries)
  else
    validateRecords cfg.records ipOK

/-- `TOMLConfigLoader.defaultConfig` (the missing-file configuration). -/
def defaultConfig : Config :=
  { server := { port := 53, bindAddress := "0.0.0.0",
                readTimeout := 5, writeTimeout := 5 },
    cache := { maxEntries := 10000, defaultTTL := 300, cleanupInterval := 60 },
    upstream := { servers := ["8.8.8.8:53", "1.1.1.1:53"], timeout := 2,
                  retries := 3 },
    logging := { level := "info", format := "json" },
    records := {} }

/-- `TOMLConfigLoader.setDefaults`: every zero-valued option takes its
    documented default. -/
def setDefaults (cfg : Config) : Config :=
  let cfg := if cfg.server.port = 0 then
    { cfg with server := { cfg.server with port := 53 } } else cfg
  let cfg := if cfg.server.bindAddress = "" then
    { cfg with server := { cfg.server with bindAddress := "0.0.0.0" } } else cfg
  let cfg := if cfg.server.readTimeout = 0 then
    { cfg with server := { cfg.server with readTimeout := 5 } } else cfg
  let cfg := if cfg.server.writeTimeout = 0 then
    { cfg with server := { cfg.server with writeTimeout := 5 } } else cfg
  let cfg := if cfg.cache.maxEntries = 0 then
    { cfg with cache := { cfg.cache with maxEntries := 10000 } } else cfg
  let cfg := if cfg.cache.defaultTTL = 0 then
    { cfg with cache := { cfg.cache with defaultTTL := 300 } } else cfg
  let cfg := if cfg.cache.cleanupInterval = 0 then
    { cfg with cache := { cfg.cache with cleanupInterval := 60 } } else cfg
  let cfg := if cfg.upstream.servers.length = 0 then
    { cfg with upstream := { cfg.upstream with
        servers := ["8.8.8.8:53", "1.1.1.1:53"] } } else cfg
  let cfg := if cfg.upstream.timeout = 0 then
    { cfg with upstream := { cfg.upstream with timeout := 2 } } else cfg
  let cfg := if cfg.upstream.retries = 0 then
    { cfg with upstream := { cfg.upstream with retries := 3 } } else cfg
  let cfg := if cfg.logging.level = "" then
    { cfg with logging := { cfg.logging with level := "info" } } else cfg
  let cfg := if cfg.logging.format = "" then
    { cfg with logging := { cfg.logging with format := "json" } } else cfg
  cfg

/-- `TOMLConfigLoader.Load` over a decoded file: a missing file yields the
    default configuration; an existing file is validated FIRST and only then
    receives defaults. -/
def load (file : Option Config) (ipOK : String → Bool) : Except ConfigErr Config :=
  match file with
  | none => .ok defaultConfig
  | some cfg =>
    match validate cfg ipOK with
    | some e => .error e
    | none => .ok (setDefaults cfg)

/-- A well-formed configuration file that sets cache.max_entries and
    upstream.servers/retries but omits server.port (decoded as 0). -/
def cfgC4 : Config :=
  { server := {},
    cache := { maxEntries := 100 },
    upstream := { servers := ["8.8.8.8:53"], retries := 3 },
    logging := {},
    records := {} }

/-- C4 evaluation at the failing input: a file omitting server.port is
    rejected with an invalid-port error because `Load` validates before
    `setDefaults` runs, although `setDefaults` itself would have supplied
    port 53 (and the missing-file path does default the port to 53).  The
    port-defaulting branch of `setDefaults` is unreachable from `Load`. -/
theorem load_omitted_port_rejected :
    load (some cfgC4) (fun _ => true) = .error (.invalidPort 0) ∧
    load none (fun _ => true) = .ok defaultConfig ∧
    defaultConfig.server.port = 53 ∧
    (setDefaults cfgC4).server.port = 53 := ⟨rfl, rfl, rfl, rfl⟩
